import Mathlib

/-!
Verification of the configuration-expansion and job-execution core of the
charidotella renderer (source: src/render.py).  The Python source is shallowly
embedded: pure helpers become Lean functions, the stateful `run` command becomes
a trace-producing executor, Python exceptions become `Option`/`Except`/crash
events, and Python `int` becomes `Nat`/`Int`.
-/

namespace Charidotella

/-! ### Decimal digits and zero padding (Python f-string formatting, `int()`) -/

/-- Decimal digit character, `digitChar d` is the ASCII digit for `d < 10`. -/
def digitChar (d : Nat) : Char := Char.ofNat (48 + d)

/-- ASCII decimal digit test, as used by the `\d` regex class on ASCII input. -/
def isDig (c : Char) : Bool := 48 ≤ c.toNat && c.toNat ≤ 57

/-- Decimal digits of a natural number, most significant first.  Fuel-driven
so that it reduces inside the kernel; `natDec` supplies enough fuel. -/
def natDecDigits : Nat → Nat → List Char
  | 0, _ => []
  | fuel + 1, n => if n < 10 then [digitChar n] else natDecDigits fuel (n / 10) ++ [digitChar (n % 10)]

/-- Decimal representation of `n` (Python `str(n)` / `repr` for a non-negative int). -/
def natDec (n : Nat) : List Char := natDecDigits (n + 1) n

/-- Python `str(n)` for an int, as a character list. -/
def intDec (n : Int) : List Char := if n < 0 then '-' :: natDec n.natAbs else natDec n.natAbs

/-- Value of a string of decimal digits (Python `int(s)`, leading zeros allowed). -/
def parseDigits : Nat → List Char → Nat
  | acc, [] => acc
  | acc, c :: rest => parseDigits (10 * acc + (c.toNat - 48)) rest

/-- Left pad with ASCII zeros to width `k`: Python format spec `0kd` applied to
an already rendered digit string. -/
def padZeros (k : Nat) (l : List Char) : List Char := List.replicate (k - l.length) '0' ++ l

/-! ### Timecode codec (render.py, `timestamp_to_timecode` and `timecode`) -/

/-- Source: render.py lines 131-138.  `timestamp_to_timecode` splits a
microsecond timestamp into hours, minutes, seconds and a microsecond fraction
and renders `f"{hours:02d}:{minutes:02d}:{seconds:02d}.{timestamp:06d}"`. -/
def timestampToTimecodeChars (t : Nat) : List Char :=
  let hours := t / 3600000000
  let t1 := t - hours * 3600000000
  let minutes := t1 / 60000000
  let t2 := t1 - minutes * 60000000
  let seconds := t2 / 1000000
  let frac := t2 - seconds * 1000000
  padZeros 2 (natDec hours) ++ ':' ::
    (padZeros 2 (natDec minutes) ++ ':' ::
      (padZeros 2 (natDec seconds) ++ '.' :: padZeros 6 (natDec frac)))

/-- String wrapper of `timestampToTimecodeChars`. -/
def timestamp_to_timecode (t : Nat) : String := String.mk (timestampToTimecodeChars t)

/-- Microsecond value of the optional fraction group of the timecode pattern
(render.py lines 167-174): exactly six digits are taken verbatim, fewer are
right padded with zeros (`int(fraction_string + "0" * (6 - len))`), and more
than six are rounded.  Python rounds `float("0." + s) * 1e6` with binary
floating point; that branch is modelled as exact rational rounding (half up),
and is unreachable from `timestamp_to_timecode`, whose fraction group always
has exactly six digits. -/
def fracMicros (fs : List Char) : Nat :=
  if fs.length = 6 then parseDigits 0 fs
  else if fs.length < 6 then parseDigits 0 (fs ++ List.replicate (6 - fs.length) '0')
  else (2 * parseDigits 0 fs + 10 ^ (fs.length - 6)) / (2 * 10 ^ (fs.length - 6))

/-- Source: render.py lines 156-175.  `timecode` accepts a bare digit string
(`value.isdigit()` then `int(value)`) or a match of the anchored pattern
`^(\d+):(\d+):(\d+)(?:\.(\d+))?$`; a failed match raises (modelled by `none`).
The regex is embedded directly: three greedy nonempty digit groups separated
by colons, then an optional dot-led nonempty digit group, then end of input;
since the digit class and the separators are disjoint, greedy scanning is
exactly the regex semantics. -/
def timecodeChars (value : List Char) : Option Nat :=
  if !value.isEmpty && value.all isDig then some (parseDigits 0 value)
  else
    let g1 := value.takeWhile isDig
    let r1 := value.dropWhile isDig
    if g1.isEmpty then none
    else
      match r1 with
      | ':' :: r1a =>
        let g2 := r1a.takeWhile isDig
        let r2 := r1a.dropWhile isDig
        if g2.isEmpty then none
        else
          match r2 with
          | ':' :: r2a =>
            let g3 := r2a.takeWhile isDig
            let r3 := r2a.dropWhile isDig
            if g3.isEmpty then none
            else
              let base := parseDigits 0 g1 * 3600000000 + parseDigits 0 g2 * 60000000 +
                parseDigits 0 g3 * 1000000
              match r3 with
              | [] => some base
              | '.' :: fs =>
                if !fs.isEmpty && fs.all isDig then some (base + fracMicros fs) else none
              | _ => none
          | _ => none
      | _ => none

/-- String wrapper of `timecodeChars`. -/
def timecode (value : String) : Option Nat := timecodeChars value.data

/-! ### Lemmas about decimal printing and parsing -/

theorem digitChar_toNat (d : Nat) (h : d < 10) : (digitChar d).toNat = 48 + d := by
  interval_cases d <;> rfl

theorem digitChar_isDig (d : Nat) (h : d < 10) : isDig (digitChar d) = true := by
  interval_cases d <;> rfl

theorem parseDigits_nil (acc : Nat) : parseDigits acc [] = acc := rfl

theorem parseDigits_cons (acc : Nat) (c : Char) (l : List Char) :
    parseDigits acc (c :: l) = parseDigits (10 * acc + (c.toNat - 48)) l := rfl

theorem parseDigits_append (a b : List Char) (acc : Nat) :
    parseDigits acc (a ++ b) = parseDigits (parseDigits acc a) b := by
  induction a generalizing acc with
  | nil => rfl
  | cons c rest ih =>
    rw [List.cons_append, parseDigits_cons, parseDigits_cons]
    exact ih _

theorem natDecDigits_ne_nil (fuel n : Nat) (h : n < fuel) : natDecDigits fuel n ≠ [] := by
  cases fuel with
  | zero => omega
  | succ fuel =>
    by_cases h10 : n < 10 <;> simp [natDecDigits, h10]

theorem natDecDigits_all_digits (fuel n : Nat) (h : n < fuel) :
    ∀ c ∈ natDecDigits fuel n, isDig c = true := by
  induction fuel generalizing n with
  | zero => omega
  | succ fuel ih =>
    intro c hc
    by_cases h10 : n < 10
    · simp [natDecDigits, h10] at hc
      subst hc
      exact digitChar_isDig n h10
    · simp only [natDecDigits, h10, if_false, List.mem_append, List.mem_singleton] at hc
      rcases hc with hc | hc
      · exact ih (n / 10) (by omega) c hc
      · subst hc
        exact digitChar_isDig (n % 10) (by omega)

theorem parseDigits_natDecDigits (fuel : Nat) :
    ∀ n acc, n < fuel →
      parseDigits acc (natDecDigits fuel n) = acc * 10 ^ (natDecDigits fuel n).length + n := by
  induction fuel with
  | zero => omega
  | succ fuel ih =>
    intro n acc h
    by_cases h10 : n < 10
    · simp only [natDecDigits, h10, if_true, if_pos]
      rw [parseDigits_cons, parseDigits_nil, digitChar_toNat n h10]
      simp
      omega
    · have hlt : n / 10 < fuel := by omega
      simp only [natDecDigits, h10, if_false]
      rw [parseDigits_append, ih (n / 10) acc hlt]
      rw [parseDigits_cons, parseDigits_nil, digitChar_toNat (n % 10) (by omega)]
      simp only [List.length_append, List.length_singleton, pow_succ, pow_add]
      have hpow : (0:Nat) < 10 ^ (natDecDigits fuel (n / 10)).length := Nat.pos_pow_of_pos _ (by omega)
      ring_nf
      omega

theorem parseDigits_natDec (n : Nat) : parseDigits 0 (natDec n) = n := by
  have := parseDigits_natDecDigits (n + 1) n 0 (by omega)
  simpa [natDec] using this

theorem natDecDigits_length_le (fuel : Nat) :
    ∀ n k, n < fuel → 1 ≤ k → n < 10 ^ k → (natDecDigits fuel n).length ≤ k := by
  induction fuel with
  | zero => omega
  | succ fuel ih =>
    intro n k h hk hnk
    by_cases h10 : n < 10
    · simp [natDecDigits, h10]
      omega
    · have hk2 : 2 ≤ k := by
        by_contra hlt
        have : k = 1 := by omega
        subst this
        simp at hnk
        omega
      have h1 : n / 10 < fuel := by omega
      have h2 : n / 10 < 10 ^ (k - 1) := by
        have : 10 ^ k = 10 ^ (k - 1) * 10 := by
          conv_lhs => rw [show k = (k - 1) + 1 by omega]
          ring
        omega
      have := ih (n / 10) (k - 1) h1 (by omega) h2
      simp [natDecDigits, h10, List.length_append]
      omega

theorem parseDigits_replicate_zero (m : Nat) : parseDigits 0 (List.replicate m '0') = 0 := by
  induction m with
  | zero => rfl
  | succ m ih =>
    rw [List.replicate_succ, parseDigits_cons]
    simpa using ih

theorem parseDigits_padZeros (k : Nat) (l : List Char) :
    parseDigits 0 (padZeros k l) = parseDigits 0 l := by
  rw [padZeros, parseDigits_append, parseDigits_replicate_zero]

theorem padZeros_all_digits (k : Nat) (l : List Char) (h : ∀ c ∈ l, isDig c = true) :
    ∀ c ∈ padZeros k l, isDig c = true := by
  intro c hc
  rw [padZeros, List.mem_append] at hc
  rcases hc with hc | hc
  · have := List.eq_of_mem_replicate hc
    subst this
    decide
  · exact h c hc

theorem padZeros_ne_nil (k : Nat) (l : List Char) (h : l ≠ []) : padZeros k l ≠ [] := by
  rw [padZeros]
  intro hh
  exact h (List.append_eq_nil.mp hh).2

theorem padZeros_length_eq (k : Nat) (l : List Char) (h : l.length ≤ k) :
    (padZeros k l).length = k := by
  simp [padZeros]
  omega

theorem natDec_ne_nil (n : Nat) : natDec n ≠ [] := natDecDigits_ne_nil (n + 1) n (by omega)

theorem natDec_all_digits (n : Nat) : ∀ c ∈ natDec n, isDig c = true :=
  natDecDigits_all_digits (n + 1) n (by omega)

theorem natDec_length_le (n k : Nat) (hk : 1 ≤ k) (h : n < 10 ^ k) : (natDec n).length ≤ k :=
  natDecDigits_length_le (n + 1) n k (by omega) hk h

/-- Greedy digit scanning stops exactly at the first non-digit separator. -/
theorem takeWhile_digits_append (l : List Char) (c : Char) (r : List Char)
    (hl : ∀ x ∈ l, isDig x = true) (hc : isDig c = false) :
    (l ++ c :: r).takeWhile isDig = l ∧ (l ++ c :: r).dropWhile isDig = c :: r := by
  induction l with
  | nil => simp [List.takeWhile, List.dropWhile, hc]
  | cons x xs ih =>
    have hx : isDig x = true := hl x (List.mem_cons_self x xs)
    have := ih (fun y hy => hl y (List.mem_cons_of_mem x hy))
    simp [List.takeWhile, List.dropWhile, hx, this.1, this.2]

set_option maxRecDepth 4000 in
/-- Round trip of the timecode codec for every timestamp (no upper bound needed). -/
theorem timecodeChars_roundtrip (t : Nat) :
    timecodeChars (timestampToTimecodeChars t) = some t := by
  simp only [timestampToTimecodeChars]
  set H := t / 3600000000 with hH
  set t1 := t - H * 3600000000 with ht1
  set M := t1 / 60000000 with hM
  set t2 := t1 - M * 60000000 with ht2
  set S := t2 / 1000000 with hS
  set F := t2 - S * 1000000 with hF
  have hMlt : M < 60 := by omega
  have hSlt : S < 60 := by omega
  have hFlt : F < 1000000 := by omega
  have hcolon : isDig ':' = false := rfl
  have hdot : isDig '.' = false := rfl
  set gH := padZeros 2 (natDec H) with hgH
  set gM := padZeros 2 (natDec M) with hgM
  set gS := padZeros 2 (natDec S) with hgS
  set gF := padZeros 6 (natDec F) with hgF
  have hgHd : ∀ c ∈ gH, isDig c = true := padZeros_all_digits _ _ (natDec_all_digits H)
  have hgMd : ∀ c ∈ gM, isDig c = true := padZeros_all_digits _ _ (natDec_all_digits M)
  have hgSd : ∀ c ∈ gS, isDig c = true := padZeros_all_digits _ _ (natDec_all_digits S)
  have hgFd : ∀ c ∈ gF, isDig c = true := padZeros_all_digits _ _ (natDec_all_digits F)
  have hgHne : gH ≠ [] := padZeros_ne_nil _ _ (natDec_ne_nil H)
  have hgMne : gM ≠ [] := padZeros_ne_nil _ _ (natDec_ne_nil M)
  have hgSne : gS ≠ [] := padZeros_ne_nil _ _ (natDec_ne_nil S)
  have hgFne : gF ≠ [] := padZeros_ne_nil _ _ (natDec_ne_nil F)
  have hall : (gH ++ ':' :: (gM ++ ':' :: (gS ++ '.' :: gF))).all isDig = false := by
    simp [List.all_append, List.all_cons, hcolon]
  have htw1 := takeWhile_digits_append gH ':' (gM ++ ':' :: (gS ++ '.' :: gF)) hgHd hcolon
  have htw2 := takeWhile_digits_append gM ':' (gS ++ '.' :: gF) hgMd hcolon
  have htw3 := takeWhile_digits_append gS '.' gF hgSd hdot
  rw [timecodeChars]
  rw [hall]
  simp only [Bool.and_false, Bool.false_eq_true, if_false]
  rw [htw1.1, htw1.2]
  rw [List.isEmpty_eq_false.mpr hgHne]
  simp only [Bool.false_eq_true, if_false]
  rw [htw2.1, htw2.2]
  rw [List.isEmpty_eq_false.mpr hgMne]
  simp only [Bool.false_eq_true, if_false]
  rw [htw3.1, htw3.2]
  rw [List.isEmpty_eq_false.mpr hgSne]
  simp only [Bool.false_eq_true, if_false]
  rw [List.isEmpty_eq_false.mpr hgFne]
  rw [List.all_eq_true.mpr hgFd]
  simp only [Bool.not_false, Bool.and_true, if_true]
  show some (parseDigits 0 gH * 3600000000 + parseDigits 0 gM * 60000000 +
    parseDigits 0 gS * 1000000 + fracMicros gF) = some t
  have hH2 : parseDigits 0 gH = H := by rw [hgH, parseDigits_padZeros, parseDigits_natDec]
  have hM2 : parseDigits 0 gM = M := by rw [hgM, parseDigits_padZeros, parseDigits_natDec]
  have hS2 : parseDigits 0 gS = S := by rw [hgS, parseDigits_padZeros, parseDigits_natDec]
  have hF2 : fracMicros gF = F := by
    have hlen : gF.length = 6 :=
      padZeros_length_eq 6 (natDec F) (natDec_length_le F 6 (by omega) (by omega))
    rw [fracMicros, if_pos hlen, hgF, parseDigits_padZeros, parseDigits_natDec]
  rw [hH2, hM2, hS2, hF2]
  congr 1
  omega

/-- Claim C9: for every integer t with 0 ≤ t < 10^12, parsing the fixed-width
timecode produced by the formatter returns t exactly:
timecode(timestamp_to_timecode(t)) == t. -/
theorem C9_timecode_roundtrip (t : Nat) (h : t < 10 ^ 12) :
    timecode (timestamp_to_timecode t) = some t :=
  timecodeChars_roundtrip t

/-- Witness for C9 at a concrete timestamp. -/
theorem C9_timecode_roundtrip_witness :
    123456789 < 10 ^ 12 ∧ timecode (timestamp_to_timecode 123456789) = some 123456789 :=
  ⟨by norm_num, C9_timecode_roundtrip 123456789 (by norm_num)⟩

/-! ### Parameter values

TOML/JSON-like values, as held by the opaque `parameters` mappings the core
passes around.  Python dicts are modelled as association lists in insertion
order with (in well-formed data) pairwise distinct keys; numbers are modelled
as integers (the TOML integers used by the configuration; binary floating
point is outside the model). -/

mutual
inductive JValue where
  | str (s : String)
  | int (n : Int)
  | bool (b : Bool)
  | list (xs : JArr)
  | dict (kvs : JObj)
inductive JArr where
  | nil
  | cons (hd : JValue) (tl : JArr)
inductive JObj where
  | nil
  | cons (key : String) (val : JValue) (tl : JObj)
end

mutual
def sizeV : JValue → Nat
  | .str _ => 1
  | .int _ => 1
  | .bool _ => 1
  | .list xs => sizeA xs + 1
  | .dict kvs => sizeO kvs + 1
def sizeA : JArr → Nat
  | .nil => 1
  | .cons v tl => sizeV v + sizeA tl + 1
def sizeO : JObj → Nat
  | .nil => 1
  | .cons _ v tl => sizeV v + sizeO tl + 1
end

/-- Python `obj[k]` / `k in obj` for a dict: first binding of `k`. -/
def lookO (k : String) : JObj → Option JValue
  | .nil => none
  | .cons k2 v tl => if k = k2 then some v else lookO k tl

/-- Keys of a dict, in insertion order. -/
def keysO : JObj → List String
  | .nil => []
  | .cons k _ tl => k :: keysO tl

/-- Python `del obj[k]`: remove the (first) binding of `k`. -/
def removeKey (k : String) : JObj → JObj
  | .nil => .nil
  | .cons k2 v tl => if k = k2 then tl else .cons k2 v (removeKey k tl)

/-- Python `obj[k] = v`: overwrite in place if present, else append. -/
def setO (k : String) (v : JValue) : JObj → JObj
  | .nil => .cons k v .nil
  | .cons k2 w tl => if k = k2 then .cons k2 v tl else .cons k2 w (setO k v tl)

/-! ### Well-formedness: pairwise distinct keys at every nesting level -/

/-- Pairwise distinct keys (one level). -/
def nodupO : JObj → Bool
  | .nil => true
  | .cons k _ tl => !(keysO tl).contains k && nodupO tl

mutual
def wfV : JValue → Bool
  | .str _ => true
  | .int _ => true
  | .bool _ => true
  | .list xs => wfA xs
  | .dict kvs => nodupO kvs && wfO kvs
def wfA : JArr → Bool
  | .nil => true
  | .cons v tl => wfV v && wfA tl
def wfO : JObj → Bool
  | .nil => true
  | .cons _ v tl => wfV v && wfO tl
end

/-- Well-formed parameter mapping: distinct keys at every nesting level. -/
def wfParams (p : JObj) : Bool := nodupO p && wfO p

/-! ### Deep equality up to key order (the specification's notion)

Modelled from the spec: "deep semantic equality of the stored parameter
mapping vs. the configured parameter mapping — reordering keys must not force
a rerun; any value change must", i.e. deep equality up to the ordering of
keys at every nesting level: scalars and sequences compare pointwise,
mappings compare as key-value sets. -/

mutual
def deqV : JValue → JValue → Bool
  | .str a, .str b => a = b
  | .int a, .int b => a = b
  | .bool a, .bool b => a = b
  | .list xs, .list ys => deqA xs ys
  | .dict p, .dict q => subO p q && subO q p
  | _, _ => false
termination_by a b => sizeV a + sizeV b
decreasing_by all_goals simp [sizeV, sizeA, sizeO] <;> omega
def deqA : JArr → JArr → Bool
  | .nil, .nil => true
  | .cons x xs, .cons y ys => deqV x y && deqA xs ys
  | _, _ => false
termination_by a b => sizeA a + sizeA b
decreasing_by all_goals simp [sizeV, sizeA, sizeO] <;> omega
def subO : JObj → JObj → Bool
  | .nil, _ => true
  | .cons k v tl, q => findDeq k v q && subO tl q
termination_by p q => sizeO p + sizeO q + 1
decreasing_by all_goals simp [sizeV, sizeA, sizeO] <;> omega
def findDeq (k : String) (v : JValue) : JObj → Bool
  | .nil => false
  | .cons k2 w tl => if k = k2 then deqV v w else findDeq k v tl
termination_by q => sizeV v + sizeO q
decreasing_by all_goals simp [sizeV, sizeA, sizeO] <;> omega
end

/-- Deep equality up to key order of two parameter mappings. -/
def deepEqObj (a b : JObj) : Bool := subO a b && subO b a

/-! ### The string order used by `sort_keys=True`

Python compares strings lexicographically by code point; so does this. -/

def charListLt : List Char → List Char → Bool
  | [], [] => false
  | [], _ :: _ => true
  | _ :: _, [] => false
  | a :: as, b :: bs =>
    if a.toNat < b.toNat then true else if b.toNat < a.toNat then false else charListLt as bs

def strLtB (a b : String) : Bool := charListLt a.data b.data

/-- Insert a binding into a key-sorted dict (before the first strictly greater key). -/
def insO (k : String) (v : JValue) : JObj → JObj
  | .nil => .cons k v .nil
  | .cons k2 w tl => if strLtB k k2 then .cons k v (.cons k2 w tl) else .cons k2 w (insO k v tl)

/-- Sort a dict by key (insertion sort). -/
def sortO : JObj → JObj
  | .nil => .nil
  | .cons k v tl => insO k v (sortO tl)

/-! ### Canonical form: every mapping recursively key-sorted -/

mutual
def canonV : JValue → JValue
  | .str s => .str s
  | .int n => .int n
  | .bool b => .bool b
  | .list xs => .list (canonA xs)
  | .dict kvs => .dict (sortO (canonO kvs))
def canonA : JArr → JArr
  | .nil => .nil
  | .cons v tl => .cons (canonV v) (canonA tl)
def canonO : JObj → JObj
  | .nil => .nil
  | .cons k v tl => .cons k (canonV v) (canonO tl)
end

/-! ### JSON serialization (CPython `json.dumps` with `separators=(",", ":")`,
`ensure_ascii=True` and, via `canonV`, `sort_keys=True`) -/

/-- Lowercase hexadecimal digit. -/
def hexDig (d : Nat) : Char := if d < 10 then digitChar d else Char.ofNat (87 + d)

/-- Four-digit lowercase hex rendering of `n < 65536` (a `\uXXXX` payload). -/
def hex4 (n : Nat) : List Char :=
  [hexDig (n / 4096 % 16), hexDig (n / 256 % 16), hexDig (n / 16 % 16), hexDig (n % 16)]

/-- Escaping of one character, following CPython `json.encoder`: the two-letter
escapes of ESCAPE_DCT, printable ASCII verbatim, everything else `\uXXXX`
(with a UTF-16 surrogate pair for code points above 0xFFFF). -/
def escChar (c : Char) : List Char :=
  if c = '\\' then ['\\', '\\']
  else if c = '"' then ['\\', '"']
  else if c.toNat = 8 then ['\\', 'b']
  else if c.toNat = 9 then ['\\', 't']
  else if c.toNat = 10 then ['\\', 'n']
  else if c.toNat = 12 then ['\\', 'f']
  else if c.toNat = 13 then ['\\', 'r']
  else if 32 ≤ c.toNat ∧ c.toNat ≤ 126 then [c]
  else if c.toNat < 65536 then '\\' :: 'u' :: hex4 c.toNat
  else
    '\\' :: 'u' :: hex4 (55296 + (c.toNat - 65536) / 1024) ++
      '\\' :: 'u' :: hex4 (56320 + (c.toNat - 65536) % 1024)

def escList : List Char → List Char
  | [] => []
  | c :: rest => escChar c ++ escList rest

/-- JSON string literal. -/
def dumpStrC (l : List Char) : List Char := '"' :: (escList l ++ ['"'])

mutual
def dumpVc : JValue → List Char
  | .str s => dumpStrC s.data
  | .int n => intDec n
  | .bool b => if b then ['t', 'r', 'u', 'e'] else ['f', 'a', 'l', 's', 'e']
  | .list xs => '[' :: (dumpAc xs ++ [']'])
  | .dict kvs => '{' :: (dumpOc kvs ++ ['}'])
def dumpAc : JArr → List Char
  | .nil => []
  | .cons v .nil => dumpVc v
  | .cons v (.cons w tl) => dumpVc v ++ ',' :: dumpAc (.cons w tl)
def dumpOc : JObj → List Char
  | .nil => []
  | .cons k v .nil => dumpStrC k.data ++ ':' :: dumpVc v
  | .cons k v (.cons k2 w tl) => dumpStrC k.data ++ ':' :: dumpVc v ++ ',' :: dumpOc (.cons k2 w tl)
end

/-- Python `json.dumps(x, sort_keys=True, separators=(",", ":"))`: `sort_keys`
serializes every mapping with its keys sorted, factored here as recursive key
sorting (`canonV`) followed by plain serialization (`dumpVc`). -/
def jsonDumpsSorted (p : JObj) : String := String.mk (dumpVc (canonV (.dict p)))

/-- Source: render.py lines 259-262.  `compare_parameters(a, b)` returns
whether the canonical, key-sorted serializations of the two mappings are
equal strings. -/
def compare_parameters (a b : JObj) : Bool := jsonDumpsSorted a == jsonDumpsSorted b

/-! ### Lemmas: the code-point order on strings is a strict total order -/

theorem charListLt_asymm :
    ∀ a b : List Char, charListLt a b = true → charListLt b a = false := by
  intro a
  induction a with
  | nil =>
    intro b hab
    cases b with
    | nil => simp [charListLt] at hab
    | cons c cs => simp [charListLt]
  | cons c cs ih =>
    intro b hab
    cases b with
    | nil => simp [charListLt] at hab
    | cons d ds =>
      simp only [charListLt] at hab ⊢
      by_cases h1 : c.toNat < d.toNat
      · simp [h1, show ¬(d.toNat < c.toNat) by omega]
      · by_cases h2 : d.toNat < c.toNat
        · simp [h1, h2] at hab
        · simp only [h1, if_false, h2, if_false] at hab ⊢
          exact ih ds hab

theorem charListLt_total_eq :
    ∀ a b : List Char, charListLt a b = false → charListLt b a = false → a = b := by
  intro a
  induction a with
  | nil =>
    intro b hab _hba
    cases b with
    | nil => rfl
    | cons d ds => simp [charListLt] at hab
  | cons c cs ih =>
    intro b hab hba
    cases b with
    | nil => simp [charListLt] at hba
    | cons d ds =>
      simp only [charListLt] at hab hba
      by_cases h1 : c.toNat < d.toNat
      · simp [h1] at hab
      · by_cases h2 : d.toNat < c.toNat
        · rw [if_pos h2] at hba
          cases hba
        · simp only [h1, if_false, h2, if_false] at hab hba
          have hc : c = d := Char.ext (UInt32.ext (show c.toNat = d.toNat by omega))
          rw [hc, ih ds hab hba]

theorem charListLt_trans :
    ∀ a b c : List Char, charListLt a b = true → charListLt b c = true →
      charListLt a c = true := by
  intro a
  induction a with
  | nil =>
    intro b c hab hbc
    cases b with
    | nil => simp [charListLt] at hab
    | cons d ds =>
      cases c with
      | nil => simp [charListLt] at hbc
      | cons e es => simp [charListLt]
  | cons x xs ih =>
    intro b c hab hbc
    cases b with
    | nil => simp [charListLt] at hab
    | cons y ys =>
      cases c with
      | nil => simp [charListLt] at hbc
      | cons z zs =>
        simp only [charListLt] at hab hbc ⊢
        by_cases h1 : x.toNat < y.toNat
        · by_cases h2 : y.toNat < z.toNat
          · simp [show x.toNat < z.toNat by omega]
          · by_cases h3 : z.toNat < y.toNat
            · simp [h2, h3] at hbc
            · have : y.toNat = z.toNat := by omega
              simp [show x.toNat < z.toNat by omega]
        · by_cases h1a : y.toNat < x.toNat
          · simp [h1, h1a] at hab
          · have hxy : x.toNat = y.toNat := by omega
            simp only [h1, if_false, h1a, if_false] at hab
            by_cases h2 : y.toNat < z.toNat
            · simp [show x.toNat < z.toNat by omega]
            · by_cases h3 : z.toNat < y.toNat
              · simp [h2, h3] at hbc
              · simp only [h2, if_false, h3, if_false] at hbc
                simp only [show ¬(x.toNat < z.toNat) by omega, if_false,
                  show ¬(z.toNat < x.toNat) by omega, if_false]
                exact ih ys zs hab hbc

theorem strLtB_asymm (a b : String) (h : strLtB a b = true) : strLtB b a = false :=
  charListLt_asymm a.data b.data h

theorem strLtB_total_eq (a b : String) (hab : strLtB a b = false) (hba : strLtB b a = false) :
    a = b :=
  String.ext (charListLt_total_eq a.data b.data hab hba)

/-- The non-strict order `notGt a b` ("a does not exceed b") used for sortedness. -/
def notGt (a b : String) : Prop := strLtB b a = false

theorem notGt_trans (a b c : String) (h1 : notGt a b) (h2 : notGt b c) : notGt a c := by
  unfold notGt at h1 h2 ⊢
  by_cases hca : strLtB c a = true
  · by_cases hab : strLtB a b = true
    · have := charListLt_trans c.data a.data b.data hca hab
      rw [show charListLt c.data b.data = strLtB c b from rfl] at this
      rw [this] at h2
      cases h2
    · by_cases hba : strLtB b a = true
      · rw [hba] at h1
        cases h1
      · have : a = b := strLtB_total_eq a b (by revert hab; cases strLtB a b <;> simp)
          (by revert hba; cases strLtB b a <;> simp)
        subst this
        rw [hca] at h2
        cases h2
  · revert hca
    cases strLtB c a <;> simp

/-- Single-motive structural induction for `JObj` (the auto-generated mutual
recursor has several motives, which the `induction` tactic does not accept). -/
theorem JObj_ind (P : JObj → Prop) (hnil : P .nil)
    (hcons : ∀ k v tl, P tl → P (.cons k v tl)) : ∀ q, P q
  | .nil => hnil
  | .cons k v tl => hcons k v tl (JObj_ind P hnil hcons tl)

/-- Single-motive structural induction for `JArr`. -/
theorem JArr_ind (P : JArr → Prop) (hnil : P .nil)
    (hcons : ∀ v tl, P tl → P (.cons v tl)) : ∀ q, P q
  | .nil => hnil
  | .cons v tl => hcons v tl (JArr_ind P hnil hcons tl)

/-! ### Lemmas: dict lookup, insertion, sorting, canonicalization -/

theorem lookO_nil (k : String) : lookO k .nil = none := rfl

theorem lookO_cons (k k2 : String) (v : JValue) (tl : JObj) :
    lookO k (.cons k2 v tl) = if k = k2 then some v else lookO k tl := rfl

theorem keysO_cons (k : String) (v : JValue) (tl : JObj) :
    keysO (.cons k v tl) = k :: keysO tl := rfl

theorem nodupO_cons (k : String) (v : JValue) (tl : JObj) :
    nodupO (.cons k v tl) = (!(keysO tl).contains k && nodupO tl) := rfl

theorem contains_eq_false_iff (l : List String) (a : String) :
    (l.contains a = false) ↔ a ∉ l := by
  simp [List.contains_iff_exists_mem_beq]

theorem lookO_mem_keys (k : String) (q : JObj) (v : JValue) (h : lookO k q = some v) :
    k ∈ keysO q := by
  induction q using JObj_ind with
  | hnil => simp [lookO_nil] at h
  | hcons k2 w tl ih =>
    rw [lookO_cons] at h
    by_cases he : k = k2
    · simp [keysO_cons, he]
    · rw [if_neg he] at h
      simp [keysO_cons, ih h]

theorem lookO_none_of_not_mem (k : String) (q : JObj) (h : ¬ k ∈ keysO q) :
    lookO k q = none := by
  induction q using JObj_ind with
  | hnil => rfl
  | hcons k2 w tl ih =>
    simp only [keysO_cons, List.mem_cons] at h
    push_neg at h
    rw [lookO_cons, if_neg h.1]
    exact ih h.2

theorem mem_keys_insO (x k : String) (v : JValue) (q : JObj) :
    x ∈ keysO (insO k v q) ↔ x = k ∨ x ∈ keysO q := by
  induction q using JObj_ind with
  | hnil => simp [insO, keysO, keysO_cons]
  | hcons k2 w tl ih =>
    rw [insO]
    by_cases h : strLtB k k2 = true
    · rw [if_pos h]
      simp [keysO_cons]
    · rw [if_neg h, keysO_cons, keysO_cons]
      simp only [List.mem_cons, ih]
      tauto

theorem lookO_insO_self (k : String) (v : JValue) (q : JObj) (h : ¬ k ∈ keysO q) :
    lookO k (insO k v q) = some v := by
  induction q using JObj_ind with
  | hnil => simp [insO, lookO_cons]
  | hcons k2 w tl ih =>
    simp only [keysO_cons, List.mem_cons] at h
    push_neg at h
    rw [insO]
    by_cases hlt : strLtB k k2 = true
    · rw [if_pos hlt, lookO_cons, if_pos rfl]
    · rw [if_neg hlt, lookO_cons, if_neg h.1]
      exact ih h.2

theorem lookO_insO_other (x k : String) (v : JValue) (q : JObj) (h : x ≠ k) :
    lookO x (insO k v q) = lookO x q := by
  induction q using JObj_ind with
  | hnil => simp [insO, lookO_nil, lookO_cons, h]
  | hcons k2 w tl ih =>
    rw [insO]
    by_cases hlt : strLtB k k2 = true
    · rw [if_pos hlt, lookO_cons, if_neg h, lookO_cons]
    · rw [if_neg hlt, lookO_cons, lookO_cons]
      by_cases he : x = k2
      · rw [if_pos he, if_pos he]
      · rw [if_neg he, if_neg he]
        exact ih

theorem nodupO_insO (k : String) (v : JValue) (q : JObj) (hk : ¬ k ∈ keysO q)
    (h : nodupO q = true) : nodupO (insO k v q) = true := by
  induction q using JObj_ind with
  | hnil => rfl
  | hcons k2 w tl ih =>
    simp only [keysO_cons, List.mem_cons] at hk
    push_neg at hk
    rw [nodupO_cons, Bool.and_eq_true] at h
    rw [insO]
    by_cases hlt : strLtB k k2 = true
    · rw [if_pos hlt, nodupO_cons, Bool.and_eq_true]
      constructor
      · simp only [Bool.not_eq_true']
        rw [contains_eq_false_iff, keysO_cons]
        simp only [List.mem_cons]
        push_neg
        exact hk
      · rw [nodupO_cons, Bool.and_eq_true]
        exact h
    · rw [if_neg hlt]
      rw [nodupO_cons, Bool.and_eq_true]
      refine ⟨?_, ih hk.2 h.2⟩
      simp only [Bool.not_eq_true']
      rw [contains_eq_false_iff]
      intro hm
      rw [mem_keys_insO] at hm
      rcases hm with hm | hm
      · exact hk.1 hm.symm
      · have h1 := h.1
        simp only [Bool.not_eq_true'] at h1
        rw [contains_eq_false_iff] at h1
        exact h1 hm

theorem mem_keys_sortO (x : String) (q : JObj) : x ∈ keysO (sortO q) ↔ x ∈ keysO q := by
  induction q using JObj_ind with
  | hnil => simp [sortO]
  | hcons k v tl ih =>
    rw [sortO, mem_keys_insO]
    simp [keysO_cons, ih]

theorem nodupO_sortO (q : JObj) (h : nodupO q = true) : nodupO (sortO q) = true := by
  induction q using JObj_ind with
  | hnil => exact h
  | hcons k v tl ih =>
    rw [nodupO_cons, Bool.and_eq_true] at h
    rw [sortO]
    apply nodupO_insO
    · rw [mem_keys_sortO]
      have h1 := h.1
      simp only [Bool.not_eq_true'] at h1
      rw [contains_eq_false_iff] at h1
      exact h1
    · exact ih h.2

theorem lookO_sortO (k : String) (q : JObj) (h : nodupO q = true) :
    lookO k (sortO q) = lookO k q := by
  induction q using JObj_ind with
  | hnil => rfl
  | hcons k2 v tl ih =>
    rw [nodupO_cons, Bool.and_eq_true] at h
    have hnm : ¬ k2 ∈ keysO tl := by
      have h1 := h.1
      simp only [Bool.not_eq_true'] at h1
      rw [contains_eq_false_iff] at h1
      exact h1
    rw [sortO, lookO_cons]
    by_cases he : k = k2
    · subst he
      rw [if_pos rfl]
      apply lookO_insO_self
      rw [mem_keys_sortO]
      exact hnm
    · rw [if_neg he, lookO_insO_other k k2 v (sortO tl) he]
      exact ih h.2

theorem keysO_canonO (p : JObj) : keysO (canonO p) = keysO p := by
  induction p using JObj_ind with
  | hnil => rfl
  | hcons k v tl ih => simp [canonO, keysO_cons, ih]

theorem nodupO_canonO (p : JObj) (h : nodupO p = true) : nodupO (canonO p) = true := by
  induction p using JObj_ind with
  | hnil => exact h
  | hcons k v tl ih =>
    rw [nodupO_cons, Bool.and_eq_true] at h
    rw [canonO, nodupO_cons, Bool.and_eq_true, keysO_canonO]
    exact ⟨h.1, ih h.2⟩

theorem lookO_canonO (k : String) (p : JObj) :
    lookO k (canonO p) = (lookO k p).map canonV := by
  induction p using JObj_ind with
  | hnil => rfl
  | hcons k2 v tl ih =>
    rw [canonO, lookO_cons, lookO_cons]
    by_cases he : k = k2
    · simp [he]
    · rw [if_neg he, if_neg he]
      exact ih

/-- Keys are sorted, non-strictly, in the code-point order. -/
def SortedKeys (q : JObj) : Prop := List.Pairwise notGt (keysO q)

theorem sortedKeys_insO (k : String) (v : JValue) (q : JObj) (h : SortedKeys q) :
    SortedKeys (insO k v q) := by
  induction q using JObj_ind with
  | hnil =>
    rw [SortedKeys]
    simp [insO, keysO, keysO_cons]
  | hcons k2 w tl ih =>
    rw [SortedKeys, keysO_cons] at h
    rcases List.pairwise_cons.mp h with ⟨hhead, htail⟩
    rw [insO]
    by_cases hlt : strLtB k k2 = true
    · rw [if_pos hlt, SortedKeys, keysO_cons, keysO_cons]
      rw [List.pairwise_cons]
      constructor
      · intro x hx
        rcases List.mem_cons.mp hx with hx | hx
        · subst hx
          exact strLtB_asymm _ _ hlt
        · exact notGt_trans k k2 x (strLtB_asymm _ _ hlt) (hhead x hx)
      · rw [List.pairwise_cons]
        exact ⟨hhead, htail⟩
    · rw [if_neg hlt, SortedKeys, keysO_cons, List.pairwise_cons]
      constructor
      · intro x hx
        rcases (mem_keys_insO x k v tl).mp hx with hx | hx
        · subst hx
          rw [notGt]
          revert hlt
          cases strLtB x k2 <;> simp
        · exact hhead x hx
      · exact ih htail

theorem sortedKeys_sortO (q : JObj) : SortedKeys (sortO q) := by
  induction q using JObj_ind with
  | hnil =>
    rw [SortedKeys]
    simp [sortO, keysO]
  | hcons k v tl ih =>
    rw [sortO]
    exact sortedKeys_insO k v (sortO tl) ih

/-- Two key-sorted mappings with distinct keys and the same lookup function
are identical. -/
theorem sorted_nodup_lookup_ext :
    ∀ p q : JObj, SortedKeys p → SortedKeys q → nodupO p = true → nodupO q = true →
      (∀ k, lookO k p = lookO k q) → p = q := by
  intro p
  induction p using JObj_ind with
  | hnil =>
    intro q _ _ _ _ hl
    induction q using JObj_ind with
    | hnil => rfl
    | hcons k2 v2 t2 _ih2 =>
      have h2 := hl k2
      rw [lookO_nil, lookO_cons, if_pos rfl] at h2
      cases h2
  | hcons k1 v1 t1 ih =>
    intro q hsp hsq hnp hnq hl
    induction q using JObj_ind with
    | hnil =>
      have h1 := hl k1
      rw [lookO_nil, lookO_cons, if_pos rfl] at h1
      cases h1
    | hcons k2 v2 t2 _ih2 =>
      rw [SortedKeys, keysO_cons] at hsp hsq
      rcases List.pairwise_cons.mp hsp with ⟨hhead1, htail1⟩
      rcases List.pairwise_cons.mp hsq with ⟨hhead2, htail2⟩
      rw [nodupO_cons, Bool.and_eq_true] at hnp hnq
      have hnm1 : ¬ k1 ∈ keysO t1 := by
        have := hnp.1
        simp only [Bool.not_eq_true'] at this
        exact (contains_eq_false_iff _ _).mp this
      have hnm2 : ¬ k2 ∈ keysO t2 := by
        have := hnq.1
        simp only [Bool.not_eq_true'] at this
        exact (contains_eq_false_iff _ _).mp this
      have hk : k1 = k2 := by
        by_contra hne
        have h1 := hl k1
        rw [lookO_cons, if_pos rfl, lookO_cons, if_neg hne] at h1
        have hm1 : k1 ∈ keysO t2 := lookO_mem_keys _ _ _ h1.symm
        have h2 := hl k2
        rw [lookO_cons, if_neg (Ne.symm hne), lookO_cons, if_pos rfl] at h2
        have hm2 : k2 ∈ keysO t1 := lookO_mem_keys _ _ _ h2
        exact hne (strLtB_total_eq k1 k2 (hhead2 k1 hm1) (hhead1 k2 hm2))
      subst hk
      have hv : v1 = v2 := by
        have h1 := hl k1
        rw [lookO_cons, if_pos rfl, lookO_cons, if_pos rfl] at h1
        exact Option.some.inj h1
      subst hv
      have ht : t1 = t2 := by
        apply ih t2 htail1 htail2 hnp.2 hnq.2
        intro k
        by_cases he : k = k1
        · subst he
          rw [lookO_none_of_not_mem k t1 hnm1, lookO_none_of_not_mem k t2 hnm2]
        · have h1 := hl k
          rw [lookO_cons, if_neg he, lookO_cons, if_neg he] at h1
          exact h1
      rw [ht]

/-! ### Equations of the deep-equality family (it is defined by well-founded
recursion, so its defining equations are re-stated here via `simp`) -/

theorem findDeq_nil (k : String) (v : JValue) : findDeq k v .nil = false := by
  simp [findDeq]

theorem findDeq_cons (k : String) (v : JValue) (k2 : String) (w : JValue) (tl : JObj) :
    findDeq k v (.cons k2 w tl) = if k = k2 then deqV v w else findDeq k v tl := by
  simp [findDeq]

theorem subO_nil (q : JObj) : subO .nil q = true := by
  simp [subO]

theorem subO_cons (k : String) (v : JValue) (tl q : JObj) :
    subO (.cons k v tl) q = (findDeq k v q && subO tl q) := by
  simp [subO]

theorem deqV_str (a b : String) : deqV (.str a) (.str b) = decide (a = b) := by
  simp [deqV]

theorem deqV_int (a b : Int) : deqV (.int a) (.int b) = decide (a = b) := by
  simp [deqV]

theorem deqV_bool (a b : Bool) : deqV (.bool a) (.bool b) = decide (a = b) := by
  simp [deqV]

theorem deqV_list (xs ys : JArr) : deqV (.list xs) (.list ys) = deqA xs ys := by
  simp [deqV]

theorem deqV_dict (p q : JObj) : deqV (.dict p) (.dict q) = (subO p q && subO q p) := by
  simp [deqV]

theorem deqA_nil_nil : deqA .nil .nil = true := by
  simp [deqA]

theorem deqA_cons_cons (x : JValue) (xs : JArr) (y : JValue) (ys : JArr) :
    deqA (.cons x xs) (.cons y ys) = (deqV x y && deqA xs ys) := by
  simp [deqA]

theorem deqA_nil_cons (y : JValue) (ys : JArr) : deqA .nil (.cons y ys) = false := by
  simp [deqA]

theorem deqA_cons_nil (x : JValue) (xs : JArr) : deqA (.cons x xs) .nil = false := by
  simp [deqA]

/-! ### Lemmas about the deep-equality family -/

theorem findDeq_true_iff (k : String) (v : JValue) (q : JObj) :
    findDeq k v q = true ↔ ∃ w, lookO k q = some w ∧ deqV v w = true := by
  induction q using JObj_ind with
  | hnil => simp [findDeq_nil, lookO_nil]
  | hcons k2 w tl ih =>
    rw [findDeq_cons, lookO_cons]
    by_cases he : k = k2
    · simp [he]
    · rw [if_neg he, if_neg he]
      exact ih

theorem subO_lookup_findDeq (p q : JObj) (k : String) (v : JValue)
    (hs : subO p q = true) (hl : lookO k p = some v) : findDeq k v q = true := by
  induction p using JObj_ind with
  | hnil => simp [lookO_nil] at hl
  | hcons k1 v1 tl ih =>
    rw [subO_cons, Bool.and_eq_true] at hs
    rw [lookO_cons] at hl
    by_cases he : k = k1
    · rw [if_pos he] at hl
      cases hl
      subst he
      exact hs.1
    · rw [if_neg he] at hl
      exact ih hs.2 hl

theorem subO_of_lookups (p q : JObj) (hn : nodupO p = true)
    (h : ∀ k v, lookO k p = some v → findDeq k v q = true) : subO p q = true := by
  induction p using JObj_ind with
  | hnil => exact subO_nil q
  | hcons k1 v1 tl ih =>
    rw [nodupO_cons, Bool.and_eq_true] at hn
    have hnm : ¬ k1 ∈ keysO tl := by
      have := hn.1
      simp only [Bool.not_eq_true'] at this
      exact (contains_eq_false_iff _ _).mp this
    rw [subO_cons, Bool.and_eq_true]
    constructor
    · exact h k1 v1 (by rw [lookO_cons, if_pos rfl])
    · apply ih hn.2
      intro k v hl
      have hne : k ≠ k1 := by
        intro he
        subst he
        exact hnm (lookO_mem_keys _ _ _ hl)
      exact h k v (by rw [lookO_cons, if_neg hne]; exact hl)

theorem wfV_lookup (p : JObj) (k : String) (v : JValue) (hw : wfO p = true)
    (hl : lookO k p = some v) : wfV v = true := by
  induction p using JObj_ind with
  | hnil => simp [lookO_nil] at hl
  | hcons k1 v1 tl ih =>
    have hw2 : wfV v1 = true ∧ wfO tl = true := by
      have : wfO (.cons k1 v1 tl) = (wfV v1 && wfO tl) := by simp [wfO]
      rw [this, Bool.and_eq_true] at hw
      exact hw
    rw [lookO_cons] at hl
    by_cases he : k = k1
    · rw [if_pos he] at hl
      cases hl
      exact hw2.1
    · rw [if_neg he] at hl
      exact ih hw2.2 hl

theorem sizeV_lookup (p : JObj) (k : String) (v : JValue) (hl : lookO k p = some v) :
    sizeV v ≤ sizeO p := by
  induction p using JObj_ind with
  | hnil => simp [lookO_nil] at hl
  | hcons k1 v1 tl ih =>
    rw [lookO_cons] at hl
    have hsz : sizeO (.cons k1 v1 tl) = sizeV v1 + sizeO tl + 1 := by simp [sizeO]
    by_cases he : k = k1
    · rw [if_pos he] at hl
      cases hl
      omega
    · rw [if_neg he] at hl
      have := ih hl
      omega

/-! ### Deep equality coincides with equality of canonical forms -/

theorem deqA_iff_canonA_of_ih (K : Nat)
    (hIH : ∀ a b : JValue, sizeV a + sizeV b ≤ K → wfV a = true → wfV b = true →
      (deqV a b = true ↔ canonV a = canonV b)) :
    ∀ xs ys : JArr, sizeA xs + sizeA ys ≤ K → wfA xs = true → wfA ys = true →
      (deqA xs ys = true ↔ canonA xs = canonA ys) := by
  intro xs
  induction xs using JArr_ind with
  | hnil =>
    intro ys hsz hwx hwy
    cases ys with
    | nil => simp [deqA_nil_nil, canonA]
    | cons y ytl => simp [deqA_nil_cons, canonA]
  | hcons x xtl ih =>
    intro ys hsz hwx hwy
    cases ys with
    | nil => simp [deqA_cons_nil, canonA]
    | cons y ytl =>
      have e1 : sizeA (JArr.cons x xtl) = sizeV x + sizeA xtl + 1 := by simp [sizeA]
      have e2 : sizeA (JArr.cons y ytl) = sizeV y + sizeA ytl + 1 := by simp [sizeA]
      have hwx2 : wfV x = true ∧ wfA xtl = true := by
        have e : wfA (.cons x xtl) = (wfV x && wfA xtl) := by simp [wfA]
        rw [e, Bool.and_eq_true] at hwx
        exact hwx
      have hwy2 : wfV y = true ∧ wfA ytl = true := by
        have e : wfA (.cons y ytl) = (wfV y && wfA ytl) := by simp [wfA]
        rw [e, Bool.and_eq_true] at hwy
        exact hwy
      have h1 := hIH x y (by omega) hwx2.1 hwy2.1
      have h2 := ih ytl (by omega) hwx2.2 hwy2.2
      rw [deqA_cons_cons]
      constructor
      · intro h
        rw [Bool.and_eq_true] at h
        simp only [canonA, JArr.cons.injEq]
        exact ⟨h1.mp h.1, h2.mp h.2⟩
      · intro h
        simp only [canonA, JArr.cons.injEq] at h
        rw [Bool.and_eq_true]
        exact ⟨h1.mpr h.1, h2.mpr h.2⟩

theorem deqV_iff_canonV_bound :
    ∀ n : Nat, ∀ a b : JValue, sizeV a + sizeV b ≤ n → wfV a = true → wfV b = true →
      (deqV a b = true ↔ canonV a = canonV b) := by
  intro n
  induction n using Nat.strong_induction_on with
  | _ n ih =>
    intro a b hsz hwa hwb
    cases a with
    | str x =>
      cases b <;> simp [deqV, canonV]
    | int m =>
      cases b <;> simp [deqV, canonV]
    | bool u =>
      cases b <;> simp [deqV, canonV]
    | list xs =>
      cases b with
      | list ys =>
        have e1 : sizeV (JValue.list xs) = sizeA xs + 1 := by simp [sizeV]
        have e2 : sizeV (JValue.list ys) = sizeA ys + 1 := by simp [sizeV]
        have hwx : wfA xs = true := by
          have e : wfV (.list xs) = wfA xs := by simp [wfV]
          rw [e] at hwa
          exact hwa
        have hwy : wfA ys = true := by
          have e : wfV (.list ys) = wfA ys := by simp [wfV]
          rw [e] at hwb
          exact hwb
        have harr := deqA_iff_canonA_of_ih (sizeA xs + sizeA ys)
          (fun v w hvw hwv hww => ih (sizeA xs + sizeA ys) (by omega) v w hvw hwv hww)
          xs ys (by omega) hwx hwy
        rw [deqV_list]
        simp only [canonV, JValue.list.injEq]
        exact harr
      | str y => simp [deqV, canonV]
      | int y => simp [deqV, canonV]
      | bool y => simp [deqV, canonV]
      | dict q => simp [deqV, canonV]
    | dict p =>
      cases b with
      | dict q =>
        have e1 : sizeV (JValue.dict p) = sizeO p + 1 := by simp [sizeV]
        have e2 : sizeV (JValue.dict q) = sizeO q + 1 := by simp [sizeV]
        have hp : nodupO p = true ∧ wfO p = true := by
          have e : wfV (.dict p) = (nodupO p && wfO p) := by simp [wfV]
          rw [e, Bool.and_eq_true] at hwa
          exact hwa
        have hq : nodupO q = true ∧ wfO q = true := by
          have e : wfV (.dict q) = (nodupO q && wfO q) := by simp [wfV]
          rw [e, Bool.and_eq_true] at hwb
          exact hwb
        have hIHpq : ∀ k v w, lookO k p = some v → lookO k q = some w →
            (deqV v w = true ↔ canonV v = canonV w) := by
          intro k v w hv hw
          have s1 := sizeV_lookup p k v hv
          have s2 := sizeV_lookup q k w hw
          exact ih (sizeO p + sizeO q) (by omega) v w (by omega)
            (wfV_lookup p k v hp.2 hv) (wfV_lookup q k w hq.2 hw)
        rw [deqV_dict]
        simp only [canonV, JValue.dict.injEq]
        constructor
        · intro h
          rw [Bool.and_eq_true] at h
          apply sorted_nodup_lookup_ext _ _ (sortedKeys_sortO _) (sortedKeys_sortO _)
            (nodupO_sortO _ (nodupO_canonO _ hp.1)) (nodupO_sortO _ (nodupO_canonO _ hq.1))
          intro k
          rw [lookO_sortO _ _ (nodupO_canonO _ hp.1), lookO_sortO _ _ (nodupO_canonO _ hq.1),
            lookO_canonO, lookO_canonO]
          cases hv : lookO k p with
          | none =>
            cases hw : lookO k q with
            | none => rfl
            | some w =>
              exfalso
              have hf := subO_lookup_findDeq q p k w h.2 hw
              rcases (findDeq_true_iff _ _ _).mp hf with ⟨v, hv2, _⟩
              rw [hv] at hv2
              cases hv2
          | some v =>
            have hf := subO_lookup_findDeq p q k v h.1 hv
            rcases (findDeq_true_iff _ _ _).mp hf with ⟨w, hw, hdq⟩
            rw [hw]
            simp only [Option.map_some']
            rw [(hIHpq k v w hv hw).mp hdq]
        · intro h
          have hlk : ∀ k, (lookO k p).map canonV = (lookO k q).map canonV := by
            intro k
            have hc := congrArg (lookO k) h
            rw [lookO_sortO _ _ (nodupO_canonO _ hp.1), lookO_sortO _ _ (nodupO_canonO _ hq.1),
              lookO_canonO, lookO_canonO] at hc
            exact hc
          rw [Bool.and_eq_true]
          constructor
          · apply subO_of_lookups p q hp.1
            intro k v hv
            have hk := hlk k
            rw [hv] at hk
            simp only [Option.map_some'] at hk
            rcases Option.map_eq_some'.mp hk.symm with ⟨w, hw, hcw⟩
            exact (findDeq_true_iff _ _ _).mpr ⟨w, hw, (hIHpq k v w hv hw).mpr hcw.symm⟩
          · apply subO_of_lookups q p hq.1
            intro k w hw
            have hk := hlk k
            rw [hw] at hk
            simp only [Option.map_some'] at hk
            rcases Option.map_eq_some'.mp hk with ⟨v, hv, hcv⟩
            have hIHwv : deqV w v = true ↔ canonV w = canonV v := by
              have s1 := sizeV_lookup p k v hv
              have s2 := sizeV_lookup q k w hw
              exact ih (sizeO p + sizeO q) (by omega) w v (by omega)
                (wfV_lookup q k w hq.2 hw) (wfV_lookup p k v hp.2 hv)
            exact (findDeq_true_iff _ _ _).mpr ⟨v, hv, hIHwv.mpr hcv.symm⟩
      | str y => simp [deqV, canonV]
      | int y => simp [deqV, canonV]
      | bool y => simp [deqV, canonV]
      | list ys => simp [deqV, canonV]

/-! ### Injectivity of the serializer, part 1: string literals

A fuel-driven decoder for JSON string literals; decoding the encoding of any
string recovers it, so encoded string literals are unambiguous. -/

def hexVal (c : Char) : Option Nat :=
  if 48 ≤ c.toNat ∧ c.toNat ≤ 57 then some (c.toNat - 48)
  else if 97 ≤ c.toNat ∧ c.toNat ≤ 102 then some (c.toNat - 87)
  else none

def readHex4 : List Char → Option (Nat × List Char)
  | a :: b :: c :: d :: r =>
    match hexVal a, hexVal b, hexVal c, hexVal d with
    | some x, some y, some z, some w => some (4096 * x + 256 * y + 16 * z + w, r)
    | _, _, _, _ => none
  | _ => none

def decStrC : Nat → List Char → Option (List Char × List Char)
  | 0, _ => none
  | _ + 1, [] => none
  | fuel + 1, c :: rest =>
    if c = '"' then some ([], rest)
    else if c = '\\' then
      match rest with
      | [] => none
      | m :: r2 =>
        if m = '\\' then (decStrC fuel r2).map (fun p => ('\\' :: p.1, p.2))
        else if m = '"' then (decStrC fuel r2).map (fun p => ('"' :: p.1, p.2))
        else if m = 'b' then (decStrC fuel r2).map (fun p => (Char.ofNat 8 :: p.1, p.2))
        else if m = 't' then (decStrC fuel r2).map (fun p => (Char.ofNat 9 :: p.1, p.2))
        else if m = 'n' then (decStrC fuel r2).map (fun p => (Char.ofNat 10 :: p.1, p.2))
        else if m = 'f' then (decStrC fuel r2).map (fun p => (Char.ofNat 12 :: p.1, p.2))
        else if m = 'r' then (decStrC fuel r2).map (fun p => (Char.ofNat 13 :: p.1, p.2))
        else if m = 'u' then
          match readHex4 r2 with
          | none => none
          | some (h, r3) =>
            if 55296 ≤ h ∧ h < 56320 then
              match r3 with
              | '\\' :: 'u' :: r4 =>
                match readHex4 r4 with
                | none => none
                | some (lo, r5) =>
                  if 56320 ≤ lo ∧ lo < 57344 then
                    (decStrC fuel r5).map
                      (fun p => (Char.ofNat (65536 + (h - 55296) * 1024 + (lo - 56320)) :: p.1, p.2))
                  else none
              | _ => none
            else (decStrC fuel r3).map (fun p => (Char.ofNat h :: p.1, p.2))
        else none
    else (decStrC fuel rest).map (fun p => (c :: p.1, p.2))

theorem hexVal_hexDig (d : Nat) (h : d < 16) : hexVal (hexDig d) = some d := by
  interval_cases d <;> rfl

theorem readHex4_hex4 (n : Nat) (h : n < 65536) (r : List Char) :
    readHex4 (hex4 n ++ r) = some (n, r) := by
  have e : hex4 n ++ r =
      hexDig (n / 4096 % 16) :: hexDig (n / 256 % 16) :: hexDig (n / 16 % 16) ::
        hexDig (n % 16) :: r := rfl
  rw [e, readHex4]
  rw [hexVal_hexDig _ (by omega), hexVal_hexDig _ (by omega), hexVal_hexDig _ (by omega),
    hexVal_hexDig _ (by omega)]
  simp only [Option.some.injEq, Prod.mk.injEq]
  constructor
  · omega
  · trivial

/-- Valid Unicode scalar values avoid the surrogate range. -/
theorem char_valid_nat (c : Char) :
    c.toNat < 55296 ∨ (57344 ≤ c.toNat ∧ c.toNat < 1114112) := by
  have h := c.valid
  rcases h with h | ⟨h1, h2⟩
  · left
    exact h
  · right
    exact ⟨h1, h2⟩

theorem decStrC_quote (fuel : Nat) (r : List Char) :
    decStrC (fuel + 1) ('"' :: r) = some ([], r) := by
  simp [decStrC]

theorem decStrC_plain (fuel : Nat) (c : Char) (rest : List Char) (h1 : ¬ c = '"')
    (h2 : ¬ c = '\\') :
    decStrC (fuel + 1) (c :: rest) = (decStrC fuel rest).map (fun p => (c :: p.1, p.2)) := by
  simp [decStrC, h1, h2]

theorem decStrC_esc2 (fuel : Nat) (m : Char) (c0 : Char) (r2 : List Char)
    (hm : (m = '\\' ∧ c0 = '\\') ∨ (m = '"' ∧ c0 = '"') ∨ (m = 'b' ∧ c0 = Char.ofNat 8) ∨
      (m = 't' ∧ c0 = Char.ofNat 9) ∨ (m = 'n' ∧ c0 = Char.ofNat 10) ∨
      (m = 'f' ∧ c0 = Char.ofNat 12) ∨ (m = 'r' ∧ c0 = Char.ofNat 13)) :
    decStrC (fuel + 1) ('\\' :: m :: r2) = (decStrC fuel r2).map (fun p => (c0 :: p.1, p.2)) := by
  rcases hm with ⟨hm, hc⟩ | ⟨hm, hc⟩ | ⟨hm, hc⟩ | ⟨hm, hc⟩ | ⟨hm, hc⟩ | ⟨hm, hc⟩ | ⟨hm, hc⟩ <;>
    subst hm <;> subst hc <;> simp [decStrC]

theorem decStrC_escu_one (fuel h : Nat) (r2 r3 : List Char)
    (hr : readHex4 r2 = some (h, r3)) (hns : ¬(55296 ≤ h ∧ h < 56320)) :
    decStrC (fuel + 1) ('\\' :: 'u' :: r2) =
      (decStrC fuel r3).map (fun p => (Char.ofNat h :: p.1, p.2)) := by
  simp [decStrC, hr, hns]

theorem decStrC_escu_pair (fuel hi lo : Nat) (r2 r4 r5 : List Char)
    (hr1 : readHex4 r2 = some (hi, '\\' :: 'u' :: r4)) (hs : 55296 ≤ hi ∧ hi < 56320)
    (hr2 : readHex4 r4 = some (lo, r5)) (hlo : 56320 ≤ lo ∧ lo < 57344) :
    decStrC (fuel + 1) ('\\' :: 'u' :: r2) =
      (decStrC fuel r5).map
        (fun p => (Char.ofNat (65536 + (hi - 55296) * 1024 + (lo - 56320)) :: p.1, p.2)) := by
  simp [decStrC, hr1, hs, hr2, hlo]

theorem escList_cons (c : Char) (l : List Char) :
    escList (c :: l) = escChar c ++ escList l := rfl

set_option maxHeartbeats 1000000 in
theorem decStrC_escList :
    ∀ (a : List Char) (r : List Char) (fuel : Nat), a.length < fuel →
      decStrC fuel (escList a ++ '"' :: r) = some (a, r) := by
  intro a
  induction a with
  | nil =>
    intro r fuel hf
    cases fuel with
    | zero => omega
    | succ fuel => exact decStrC_quote fuel r
  | cons c as ih =>
    intro r fuel hf
    cases fuel with
    | zero => simp at hf
    | succ fuel =>
      have hf2 : as.length < fuel := by
        simp only [List.length_cons] at hf
        omega
      rw [escList_cons, List.append_assoc, escChar]
      by_cases h1 : c = '\\'
      · rw [if_pos h1]
        show decStrC (fuel + 1) ('\\' :: '\\' :: (escList as ++ '"' :: r)) = _
        rw [decStrC_esc2 fuel '\\' '\\' _ (Or.inl ⟨rfl, rfl⟩), ih r fuel hf2]
        simp [h1]
      · rw [if_neg h1]
        by_cases h2 : c = '"'
        · rw [if_pos h2]
          show decStrC (fuel + 1) ('\\' :: '"' :: (escList as ++ '"' :: r)) = _
          rw [decStrC_esc2 fuel '"' '"' _ (Or.inr (Or.inl ⟨rfl, rfl⟩)), ih r fuel hf2]
          simp [h2]
        · rw [if_neg h2]
          by_cases h3 : c.toNat = 8
          · rw [if_pos h3]
            show decStrC (fuel + 1) ('\\' :: 'b' :: (escList as ++ '"' :: r)) = _
            rw [decStrC_esc2 fuel 'b' (Char.ofNat 8) _ (Or.inr (Or.inr (Or.inl ⟨rfl, rfl⟩))), ih r fuel hf2]
            rw [← h3, Char.ofNat_toNat]
            rfl
          · rw [if_neg h3]
            by_cases h4 : c.toNat = 9
            · rw [if_pos h4]
              show decStrC (fuel + 1) ('\\' :: 't' :: (escList as ++ '"' :: r)) = _
              rw [decStrC_esc2 fuel 't' (Char.ofNat 9) _ (Or.inr (Or.inr (Or.inr (Or.inl ⟨rfl, rfl⟩)))), ih r fuel hf2]
              rw [← h4, Char.ofNat_toNat]
              rfl
            · rw [if_neg h4]
              by_cases h5 : c.toNat = 10
              · rw [if_pos h5]
                show decStrC (fuel + 1) ('\\' :: 'n' :: (escList as ++ '"' :: r)) = _
                rw [decStrC_esc2 fuel 'n' (Char.ofNat 10) _ (Or.inr (Or.inr (Or.inr (Or.inr (Or.inl ⟨rfl, rfl⟩))))), ih r fuel hf2]
                rw [← h5, Char.ofNat_toNat]
                rfl
              · rw [if_neg h5]
                by_cases h6 : c.toNat = 12
                · rw [if_pos h6]
                  show decStrC (fuel + 1) ('\\' :: 'f' :: (escList as ++ '"' :: r)) = _
                  rw [decStrC_esc2 fuel 'f' (Char.ofNat 12) _ (Or.inr (Or.inr (Or.inr (Or.inr (Or.inr (Or.inl ⟨rfl, rfl⟩)))))), ih r fuel hf2]
                  rw [← h6, Char.ofNat_toNat]
                  rfl
                · rw [if_neg h6]
                  by_cases h7 : c.toNat = 13
                  · rw [if_pos h7]
                    show decStrC (fuel + 1) ('\\' :: 'r' :: (escList as ++ '"' :: r)) = _
                    rw [decStrC_esc2 fuel 'r' (Char.ofNat 13) _ (Or.inr (Or.inr (Or.inr (Or.inr (Or.inr (Or.inr ⟨rfl, rfl⟩)))))), ih r fuel hf2]
                    rw [← h7, Char.ofNat_toNat]
                    rfl
                  · rw [if_neg h7]
                    by_cases h8 : 32 ≤ c.toNat ∧ c.toNat ≤ 126
                    · rw [if_pos h8]
                      show decStrC (fuel + 1) (c :: (escList as ++ '"' :: r)) = _
                      rw [decStrC_plain fuel c _ h2 h1, ih r fuel hf2]
                      rfl
                    · rw [if_neg h8]
                      by_cases h9 : c.toNat < 65536
                      · rw [if_pos h9]
                        show decStrC (fuel + 1)
                          ('\\' :: 'u' :: (hex4 c.toNat ++ (escList as ++ '"' :: r))) = _
                        have hval := char_valid_nat c
                        rw [decStrC_escu_one fuel c.toNat _ _ (readHex4_hex4 c.toNat h9 _)
                          (by omega)]
                        rw [ih r fuel hf2, Char.ofNat_toNat]
                        rfl
                      · rw [if_neg h9]
                        have hval := char_valid_nat c
                        have hlt : c.toNat < 1114112 := by omega
                        show decStrC (fuel + 1)
                          ('\\' :: 'u' :: (hex4 (55296 + (c.toNat - 65536) / 1024) ++
                            ('\\' :: 'u' :: hex4 (56320 + (c.toNat - 65536) % 1024) ++
                              (escList as ++ '"' :: r)))) = _
                        have e2 : (hex4 (55296 + (c.toNat - 65536) / 1024) ++
                            ('\\' :: 'u' :: hex4 (56320 + (c.toNat - 65536) % 1024) ++
                              (escList as ++ '"' :: r))) =
                            (hex4 (55296 + (c.toNat - 65536) / 1024) ++
                            ('\\' :: 'u' :: (hex4 (56320 + (c.toNat - 65536) % 1024) ++
                              (escList as ++ '"' :: r)))) := rfl
                        rw [e2]
                        rw [decStrC_escu_pair fuel (55296 + (c.toNat - 65536) / 1024)
                          (56320 + (c.toNat - 65536) % 1024) _ _ _
                          (readHex4_hex4 _ (by omega) _) (by omega)
                          (readHex4_hex4 _ (by omega) _) (by omega)]
                        rw [ih r fuel hf2]
                        have ec : 65536 + (55296 + (c.toNat - 65536) / 1024 - 55296) * 1024 +
                            (56320 + (c.toNat - 65536) % 1024 - 56320) = c.toNat := by omega
                        rw [ec, Char.ofNat_toNat]
                        rfl

/-- Encoded string literals are unambiguous. -/
theorem escList_unamb (a b r s : List Char)
    (h : escList a ++ '"' :: r = escList b ++ '"' :: s) : a = b ∧ r = s := by
  have h1 := decStrC_escList a r (a.length + b.length + 1) (by omega)
  have h2 := decStrC_escList b s (a.length + b.length + 1) (by omega)
  rw [h, h2] at h1
  exact ⟨(Prod.mk.injEq _ _ _ _ ▸ Option.some.inj h1.symm).1,
    (Prod.mk.injEq _ _ _ _ ▸ Option.some.inj h1.symm).2⟩

/-! ### Injectivity of the serializer, part 2: numbers and first characters -/

/-- The remainder does not begin with a decimal digit (so it cannot extend a
serialized integer). -/
def noDigHead : List Char → Prop
  | [] => True
  | c :: _ => isDig c = false

theorem digits_run_unamb :
    ∀ a b r s : List Char, (∀ c ∈ a, isDig c = true) → (∀ c ∈ b, isDig c = true) →
      noDigHead r → noDigHead s → a ++ r = b ++ s → a = b ∧ r = s := by
  intro a
  induction a with
  | nil =>
    intro b r s _ hb hr _hs h
    cases b with
    | nil => exact ⟨rfl, h⟩
    | cons d bs =>
      rw [List.nil_append, List.cons_append] at h
      subst h
      rw [noDigHead] at hr
      rw [hb d (List.mem_cons_self d bs)] at hr
      cases hr
  | cons c as ih =>
    intro b r s ha hb hr hs h
    cases b with
    | nil =>
      rw [List.nil_append, List.cons_append] at h
      rw [← h] at hs
      rw [noDigHead] at hs
      rw [ha c (List.mem_cons_self c as)] at hs
      cases hs
    | cons d bs =>
      rw [List.cons_append, List.cons_append] at h
      have hcd := List.cons.inj h
      rcases ih bs r s (fun x hx => ha x (List.mem_cons_of_mem c hx))
        (fun x hx => hb x (List.mem_cons_of_mem d hx)) hr hs hcd.2 with ⟨h1, h2⟩
      exact ⟨by rw [hcd.1, h1], h2⟩

theorem natDec_inj (n m : Nat) (h : natDec n = natDec m) : n = m := by
  have h1 := parseDigits_natDec n
  rw [h, parseDigits_natDec m] at h1
  exact h1.symm

theorem natDec_head_digit (n : Nat) : ∃ c t, natDec n = c :: t ∧ isDig c = true := by
  cases he : natDec n with
  | nil => exact absurd he (natDec_ne_nil n)
  | cons c t =>
    refine ⟨c, t, rfl, ?_⟩
    exact natDec_all_digits n c (by rw [he]; exact List.mem_cons_self c t)

theorem intDec_unamb (n m : Int) (r s : List Char) (hr : noDigHead r) (hs : noDigHead s)
    (h : intDec n ++ r = intDec m ++ s) : n = m ∧ r = s := by
  rcases natDec_head_digit n.natAbs with ⟨cn, tn, hcn, hdn⟩
  rcases natDec_head_digit m.natAbs with ⟨cm, tm, hcm, hdm⟩
  rw [intDec, intDec] at h
  by_cases h1 : n < 0
  · by_cases h2 : m < 0
    · rw [if_pos h1, if_pos h2, List.cons_append, List.cons_append] at h
      have hinj := List.cons.inj h
      rcases digits_run_unamb _ _ r s (natDec_all_digits _) (natDec_all_digits _) hr hs
        hinj.2 with ⟨ha, hb⟩
      have := natDec_inj _ _ ha
      exact ⟨by omega, hb⟩
    · rw [if_pos h1, if_neg h2, List.cons_append] at h
      rw [hcm, List.cons_append] at h
      have hinj := List.cons.inj h
      rw [← hinj.1] at hdm
      cases hdm
  · by_cases h2 : m < 0
    · rw [if_neg h1, if_pos h2, List.cons_append] at h
      rw [hcn, List.cons_append] at h
      have hinj := List.cons.inj h
      rw [hinj.1] at hdn
      cases hdn
    · rw [if_neg h1, if_neg h2] at h
      rcases digits_run_unamb _ _ r s (natDec_all_digits _) (natDec_all_digits _) hr hs h with
        ⟨ha, hb⟩
      have := natDec_inj _ _ ha
      exact ⟨by omega, hb⟩

/-- Constructor-dependent class of the first character of a serialization. -/
def classOf : JValue → Char → Bool
  | .str _, c => c = '"'
  | .int _, c => c = '-' || isDig c
  | .bool _, c => c = 't' || c = 'f'
  | .list _, c => c = '['
  | .dict _, c => c = '{'

theorem dumpVc_head : ∀ v : JValue, ∃ c t, dumpVc v = c :: t ∧ classOf v c = true := by
  intro v
  cases v with
  | str x =>
    exact ⟨'"', escList x.data ++ ['"'], by simp [dumpVc, dumpStrC], by simp [classOf]⟩
  | int n =>
    by_cases h : n < 0
    · exact ⟨'-', natDec n.natAbs, by simp [dumpVc, intDec, h], by simp [classOf]⟩
    · rcases natDec_head_digit n.natAbs with ⟨c, t, hc, hd⟩
      refine ⟨c, t, ?_, by simp [classOf, hd]⟩
      have e : dumpVc (.int n) = intDec n := by simp [dumpVc]
      rw [e, intDec, if_neg h, hc]
  | bool b =>
    cases b with
    | true => exact ⟨'t', ['r', 'u', 'e'], by simp [dumpVc], by simp [classOf]⟩
    | false => exact ⟨'f', ['a', 'l', 's', 'e'], by simp [dumpVc], by simp [classOf]⟩
  | list xs => exact ⟨'[', dumpAc xs ++ [']'], by simp [dumpVc], by simp [classOf]⟩
  | dict kvs => exact ⟨'{', dumpOc kvs ++ ['}'], by simp [dumpVc], by simp [classOf]⟩

/-- Index of the constructor, used to state that first characters distinguish
constructors. -/
def ctorIdx : JValue → Nat
  | .str _ => 0
  | .int _ => 1
  | .bool _ => 2
  | .list _ => 3
  | .dict _ => 4

theorem classOf_code (v : JValue) (c : Char) (h : classOf v c = true) :
    (ctorIdx v = 0 ∧ c.toNat = 34) ∨
      (ctorIdx v = 1 ∧ (c.toNat = 45 ∨ (48 ≤ c.toNat ∧ c.toNat ≤ 57))) ∨
      (ctorIdx v = 2 ∧ (c.toNat = 116 ∨ c.toNat = 102)) ∨
      (ctorIdx v = 3 ∧ c.toNat = 91) ∨ (ctorIdx v = 4 ∧ c.toNat = 123) := by
  cases v with
  | str x =>
    refine Or.inl ⟨rfl, ?_⟩
    have hc : c = '"' := by simpa [classOf] using h
    subst hc
    rfl
  | int n =>
    refine Or.inr (Or.inl ⟨rfl, ?_⟩)
    simp only [classOf, Bool.or_eq_true, decide_eq_true_eq] at h
    rcases h with h | h
    · subst h
      exact Or.inl rfl
    · right
      simpa [isDig, Bool.and_eq_true, decide_eq_true_eq] using h
  | bool b =>
    refine Or.inr (Or.inr (Or.inl ⟨rfl, ?_⟩))
    simp only [classOf, Bool.or_eq_true, decide_eq_true_eq] at h
    rcases h with h | h
    · subst h
      exact Or.inl rfl
    · subst h
      exact Or.inr rfl
  | list xs =>
    refine Or.inr (Or.inr (Or.inr (Or.inl ⟨rfl, ?_⟩)))
    have hc : c = '[' := by simpa [classOf] using h
    subst hc
    rfl
  | dict kvs =>
    refine Or.inr (Or.inr (Or.inr (Or.inr ⟨rfl, ?_⟩)))
    have hc : c = '{' := by simpa [classOf] using h
    subst hc
    rfl

theorem classOf_disjoint (v w : JValue) (c : Char) (hv : classOf v c = true)
    (hw : classOf w c = true) : ctorIdx v = ctorIdx w := by
  have a := classOf_code v c hv
  have b := classOf_code w c hw
  rcases a with ⟨a1, a2⟩ | ⟨a1, a2⟩ | ⟨a1, a2⟩ | ⟨a1, a2⟩ | ⟨a1, a2⟩ <;>
    rcases b with ⟨b1, b2⟩ | ⟨b1, b2⟩ | ⟨b1, b2⟩ | ⟨b1, b2⟩ | ⟨b1, b2⟩ <;> omega

/-! ### Injectivity of the serializer, part 3: full values -/

theorem dumpVc_str_eq (x : String) : dumpVc (.str x) = dumpStrC x.data := by simp [dumpVc]

theorem dumpVc_int_eq (n : Int) : dumpVc (.int n) = intDec n := by simp [dumpVc]

theorem dumpVc_true_eq : dumpVc (.bool true) = ['t', 'r', 'u', 'e'] := by simp [dumpVc]

theorem dumpVc_false_eq : dumpVc (.bool false) = ['f', 'a', 'l', 's', 'e'] := by simp [dumpVc]

theorem dumpVc_list_eq (xs : JArr) : dumpVc (.list xs) = '[' :: (dumpAc xs ++ [']']) := by
  simp [dumpVc]

theorem dumpVc_dict_eq (kvs : JObj) : dumpVc (.dict kvs) = '{' :: (dumpOc kvs ++ ['}']) := by
  simp [dumpVc]

/-- Separator-led continuation of a nonempty array serialization. -/
def arrTail : JArr → List Char
  | .nil => []
  | .cons v tl => ',' :: dumpAc (.cons v tl)

/-- Separator-led continuation of a nonempty object serialization. -/
def objTail : JObj → List Char
  | .nil => []
  | .cons k v tl => ',' :: dumpOc (.cons k v tl)

theorem dumpAc_cons_shape (v : JValue) (tl : JArr) :
    dumpAc (.cons v tl) = dumpVc v ++ arrTail tl := by
  cases tl <;> simp [dumpAc, arrTail]

theorem dumpOc_cons_shape (k : String) (v : JValue) (tl : JObj) :
    dumpOc (.cons k v tl) = dumpStrC k.data ++ (':' :: (dumpVc v ++ objTail tl)) := by
  cases tl <;> simp [dumpOc, objTail]

theorem noDigHead_arrTail (tl : JArr) (r : List Char) : noDigHead (arrTail tl ++ ']' :: r) := by
  cases tl with
  | nil =>
    show noDigHead (']' :: r)
    rw [noDigHead]
    rfl
  | cons v tl2 =>
    show noDigHead (',' :: _)
    rw [noDigHead]
    rfl

theorem noDigHead_objTail (tl : JObj) (r : List Char) : noDigHead (objTail tl ++ '}' :: r) := by
  cases tl with
  | nil =>
    show noDigHead ('}' :: r)
    rw [noDigHead]
    rfl
  | cons k v tl2 =>
    show noDigHead (',' :: _)
    rw [noDigHead]
    rfl

theorem dump_stream_ctor (v w : JValue) (r s : List Char) (h : dumpVc v ++ r = dumpVc w ++ s) :
    ctorIdx v = ctorIdx w := by
  rcases dumpVc_head v with ⟨c1, t1, e1, hc1⟩
  rcases dumpVc_head w with ⟨c2, t2, e2, hc2⟩
  rw [e1, e2, List.cons_append, List.cons_append] at h
  have hcc := (List.cons.inj h).1
  subst hcc
  exact classOf_disjoint v w c1 hc1 hc2

theorem dumpAc_unamb (K : Nat)
    (hIH : ∀ v w : JValue, sizeV v ≤ K → ∀ r s, dumpVc v ++ r = dumpVc w ++ s →
      noDigHead r → noDigHead s → v = w ∧ r = s) :
    ∀ xs ys : JArr, sizeA xs ≤ K → ∀ r s,
      dumpAc xs ++ ']' :: r = dumpAc ys ++ ']' :: s → xs = ys ∧ r = s := by
  intro xs
  induction xs using JArr_ind with
  | hnil =>
    intro ys hsz r s h
    cases ys with
    | nil => exact ⟨rfl, (List.cons.inj h).2⟩
    | cons y ytl =>
      exfalso
      rw [dumpAc_cons_shape] at h
      rcases dumpVc_head y with ⟨c, t, e, hc⟩
      rw [e] at h
      have enil : dumpAc JArr.nil = [] := by simp [dumpAc]
      rw [enil] at h
      simp only [List.append_assoc, List.cons_append, List.nil_append] at h
      have hcc := (List.cons.inj h).1
      subst hcc
      have h93 : (']' : Char).toNat = 93 := rfl
      rcases classOf_code y _ hc with ⟨_, h2⟩ | ⟨_, h2⟩ | ⟨_, h2⟩ | ⟨_, h2⟩ | ⟨_, h2⟩ <;> omega
  | hcons x xtl ih =>
    intro ys hsz r s h
    have hszc : sizeA (JArr.cons x xtl) = sizeV x + sizeA xtl + 1 := by simp [sizeA]
    cases ys with
    | nil =>
      exfalso
      rw [dumpAc_cons_shape] at h
      rcases dumpVc_head x with ⟨c, t, e, hc⟩
      rw [e] at h
      have enil : dumpAc JArr.nil = [] := by simp [dumpAc]
      rw [enil] at h
      simp only [List.append_assoc, List.cons_append, List.nil_append] at h
      have hcc := (List.cons.inj h).1
      rw [hcc] at hc
      have h93 : (']' : Char).toNat = 93 := rfl
      rcases classOf_code x _ hc with ⟨_, h2⟩ | ⟨_, h2⟩ | ⟨_, h2⟩ | ⟨_, h2⟩ | ⟨_, h2⟩ <;> omega
    | cons y ytl =>
      rw [dumpAc_cons_shape, dumpAc_cons_shape, List.append_assoc, List.append_assoc] at h
      rcases hIH x y (by omega) _ _ h (noDigHead_arrTail xtl r) (noDigHead_arrTail ytl s) with
        ⟨hxy, htl⟩
      subst hxy
      cases xtl with
      | nil =>
        cases ytl with
        | nil =>
          refine ⟨rfl, ?_⟩
          have : (']' : Char) :: r = ']' :: s := htl
          exact (List.cons.inj this).2
        | cons y2 ytl2 =>
          exfalso
          have : (']' : Char) :: r = ',' :: dumpAc (.cons y2 ytl2) ++ ']' :: s := htl
          rw [List.cons_append] at this
          have hcc := (List.cons.inj this).1
          cases hcc
      | cons x2 xtl2 =>
        cases ytl with
        | nil =>
          exfalso
          have : (',' : Char) :: dumpAc (.cons x2 xtl2) ++ ']' :: r = ']' :: s := htl
          rw [List.cons_append] at this
          have hcc := (List.cons.inj this).1
          cases hcc
        | cons y2 ytl2 =>
          have h2 : dumpAc (.cons x2 xtl2) ++ ']' :: r = dumpAc (.cons y2 ytl2) ++ ']' :: s := by
            have e3 : (',' : Char) :: dumpAc (.cons x2 xtl2) ++ ']' :: r =
                ',' :: dumpAc (.cons y2 ytl2) ++ ']' :: s := htl
            rw [List.cons_append, List.cons_append] at e3
            exact (List.cons.inj e3).2
          have hsz2 : sizeA (JArr.cons x2 xtl2) ≤ K := by
            have e4 : sizeA (JArr.cons x2 xtl2) ≥ 0 := by omega
            omega
          rcases ih (JArr.cons y2 ytl2) hsz2 r s h2 with ⟨he, hrs⟩
          exact ⟨by rw [he], hrs⟩

theorem dumpOc_unamb (K : Nat)
    (hIH : ∀ v w : JValue, sizeV v ≤ K → ∀ r s, dumpVc v ++ r = dumpVc w ++ s →
      noDigHead r → noDigHead s → v = w ∧ r = s) :
    ∀ p q : JObj, sizeO p ≤ K → ∀ r s,
      dumpOc p ++ '}' :: r = dumpOc q ++ '}' :: s → p = q ∧ r = s := by
  intro p
  induction p using JObj_ind with
  | hnil =>
    intro q hsz r s h
    cases q with
    | nil => exact ⟨rfl, (List.cons.inj h).2⟩
    | cons k v tl =>
      exfalso
      rw [dumpOc_cons_shape, dumpStrC] at h
      simp only [List.append_assoc, List.cons_append] at h
      have hcc := (List.cons.inj h).1
      cases hcc
  | hcons k1 v1 tl1 ih =>
    intro q hsz r s h
    have hszc : sizeO (JObj.cons k1 v1 tl1) = sizeV v1 + sizeO tl1 + 1 := by simp [sizeO]
    cases q with
    | nil =>
      exfalso
      rw [dumpOc_cons_shape, dumpStrC] at h
      simp only [List.append_assoc, List.cons_append] at h
      have hcc := (List.cons.inj h).1
      cases hcc
    | cons k2 v2 tl2 =>
      rw [dumpOc_cons_shape, dumpOc_cons_shape, dumpStrC, dumpStrC] at h
      simp only [List.append_assoc, List.cons_append, List.singleton_append] at h
      have h2 := (List.cons.inj h).2
      rcases escList_unamb _ _ _ _ h2 with ⟨hk, h3⟩
      have hkk : k1 = k2 := String.ext hk
      subst hkk
      have h4 := (List.cons.inj h3).2
      rcases hIH v1 v2 (by omega) _ _ h4 (noDigHead_objTail tl1 r) (noDigHead_objTail tl2 s)
        with ⟨hv, htl⟩
      subst hv
      cases tl1 with
      | nil =>
        cases tl2 with
        | nil =>
          refine ⟨rfl, ?_⟩
          have e5 : ('}' : Char) :: r = '}' :: s := htl
          exact (List.cons.inj e5).2
        | cons ka va ta =>
          exfalso
          have e5 : ('}' : Char) :: r = ',' :: dumpOc (.cons ka va ta) ++ '}' :: s := htl
          rw [List.cons_append] at e5
          have hcc := (List.cons.inj e5).1
          cases hcc
      | cons ka va ta =>
        cases tl2 with
        | nil =>
          exfalso
          have e5 : (',' : Char) :: dumpOc (.cons ka va ta) ++ '}' :: r = '}' :: s := htl
          rw [List.cons_append] at e5
          have hcc := (List.cons.inj e5).1
          cases hcc
        | cons kb vb tb =>
          have h5 : dumpOc (.cons ka va ta) ++ '}' :: r = dumpOc (.cons kb vb tb) ++ '}' :: s := by
            have e5 : (',' : Char) :: dumpOc (.cons ka va ta) ++ '}' :: r =
                ',' :: dumpOc (.cons kb vb tb) ++ '}' :: s := htl
            rw [List.cons_append, List.cons_append] at e5
            exact (List.cons.inj e5).2
          have hsz2 : sizeO (JObj.cons ka va ta) ≤ K := by omega
          rcases ih (JObj.cons kb vb tb) hsz2 r s h5 with ⟨he, hrs⟩
          exact ⟨by rw [he], hrs⟩

theorem dumpVc_unamb_bound :
    ∀ n : Nat, ∀ v w : JValue, sizeV v ≤ n → ∀ r s : List Char,
      dumpVc v ++ r = dumpVc w ++ s → noDigHead r → noDigHead s → v = w ∧ r = s := by
  intro n
  induction n using Nat.strong_induction_on with
  | _ n ih =>
    intro v w hsz r s h hr hs
    have hctor := dump_stream_ctor v w r s h
    cases v with
    | str x =>
      cases w with
      | str y =>
        rw [dumpVc_str_eq, dumpVc_str_eq, dumpStrC, dumpStrC] at h
        simp only [List.append_assoc, List.cons_append, List.singleton_append] at h
        have h2 := (List.cons.inj h).2
        rcases escList_unamb _ _ _ _ h2 with ⟨hk, hrs⟩
        exact ⟨by rw [String.ext hk], hrs⟩
      | int m => simp [ctorIdx] at hctor
      | bool b => simp [ctorIdx] at hctor
      | list ys => simp [ctorIdx] at hctor
      | dict q => simp [ctorIdx] at hctor
    | int m1 =>
      cases w with
      | str y => simp [ctorIdx] at hctor
      | int m2 =>
        rw [dumpVc_int_eq, dumpVc_int_eq] at h
        rcases intDec_unamb m1 m2 r s hr hs h with ⟨hm, hrs⟩
        exact ⟨by rw [hm], hrs⟩
      | bool b => simp [ctorIdx] at hctor
      | list ys => simp [ctorIdx] at hctor
      | dict q => simp [ctorIdx] at hctor
    | bool b1 =>
      cases w with
      | str y => simp [ctorIdx] at hctor
      | int m => simp [ctorIdx] at hctor
      | bool b2 =>
        cases b1 <;> cases b2
        · rw [dumpVc_false_eq] at h
          exact ⟨rfl, by simpa using h⟩
        · rw [dumpVc_false_eq, dumpVc_true_eq] at h
          exact absurd h (by simp)
        · rw [dumpVc_true_eq, dumpVc_false_eq] at h
          exact absurd h (by simp)
        · rw [dumpVc_true_eq] at h
          exact ⟨rfl, by simpa using h⟩
      | list ys => simp [ctorIdx] at hctor
      | dict q => simp [ctorIdx] at hctor
    | list xs =>
      cases w with
      | str y => simp [ctorIdx] at hctor
      | int m => simp [ctorIdx] at hctor
      | bool b => simp [ctorIdx] at hctor
      | list ys =>
        rw [dumpVc_list_eq, dumpVc_list_eq] at h
        simp only [List.append_assoc, List.cons_append, List.singleton_append] at h
        have h2 := (List.cons.inj h).2
        have e1 : sizeV (JValue.list xs) = sizeA xs + 1 := by simp [sizeV]
        have harr := dumpAc_unamb (sizeA xs)
          (fun v2 w2 hv2 r2 s2 hh hr2 hs2 => ih (sizeA xs) (by omega) v2 w2 hv2 r2 s2 hh hr2 hs2)
          xs ys (by omega) r s h2
        exact ⟨by rw [harr.1], harr.2⟩
      | dict q => simp [ctorIdx] at hctor
    | dict p =>
      cases w with
      | str y => simp [ctorIdx] at hctor
      | int m => simp [ctorIdx] at hctor
      | bool b => simp [ctorIdx] at hctor
      | list ys => simp [ctorIdx] at hctor
      | dict q =>
        rw [dumpVc_dict_eq, dumpVc_dict_eq] at h
        simp only [List.append_assoc, List.cons_append, List.singleton_append] at h
        have h2 := (List.cons.inj h).2
        have e1 : sizeV (JValue.dict p) = sizeO p + 1 := by simp [sizeV]
        have hobj := dumpOc_unamb (sizeO p)
          (fun v2 w2 hv2 r2 s2 hh hr2 hs2 => ih (sizeO p) (by omega) v2 w2 hv2 r2 s2 hh hr2 hs2)
          p q (by omega) r s h2
        exact ⟨by rw [hobj.1], hobj.2⟩

/-- The plain serializer is injective. -/
theorem dumpVc_inj (v w : JValue) (h : dumpVc v = dumpVc w) : v = w := by
  have h2 : dumpVc v ++ [] = dumpVc w ++ [] := by rw [List.append_nil, List.append_nil, h]
  exact (dumpVc_unamb_bound (sizeV v) v w le_rfl [] [] h2 trivial trivial).1

/-! ### Claim C6 -/

/-- Claim C6: compare_parameters(a, b) returns true if and only if the two
parameter mappings are deeply equal up to the ordering of keys at every
nesting level: for every pair of mappings that differ only in key order it
returns true, and for every pair differing in some value it returns false.
(`wfParams` states the implicit dict invariant of distinct keys at every
level, which Python mappings satisfy by construction.) -/
theorem C6_compare_parameters_deep_equal (a b : JObj)
    (ha : wfParams a = true) (hb : wfParams b = true) :
    compare_parameters a b = true ↔ deepEqObj a b = true := by
  have hwa : wfV (.dict a) = true := by
    have e : wfV (JValue.dict a) = wfParams a := by simp [wfV, wfParams]
    rw [e]
    exact ha
  have hwb : wfV (.dict b) = true := by
    have e : wfV (JValue.dict b) = wfParams b := by simp [wfV, wfParams]
    rw [e]
    exact hb
  have hiff := deqV_iff_canonV_bound (sizeV (.dict a) + sizeV (.dict b)) (.dict a) (.dict b)
    le_rfl hwa hwb
  rw [deqV_dict] at hiff
  rw [compare_parameters, jsonDumpsSorted, jsonDumpsSorted, deepEqObj]
  constructor
  · intro h
    have hstr : String.mk (dumpVc (canonV (.dict a))) = String.mk (dumpVc (canonV (.dict b))) :=
      eq_of_beq h
    have hlc : dumpVc (canonV (.dict a)) = dumpVc (canonV (.dict b)) := by
      simpa using congrArg String.data hstr
    exact hiff.mpr (dumpVc_inj _ _ hlc)
  · intro h
    have hcn := hiff.mp h
    have hstr : String.mk (dumpVc (canonV (.dict a))) = String.mk (dumpVc (canonV (.dict b))) := by
      rw [hcn]
    exact beq_iff_eq.mpr hstr

/-- Key-reordered example mapping (value side of the C6 witness). -/
def c6exA : JObj :=
  .cons "alpha" (.int 1)
    (.cons "nested"
      (.dict (.cons "x" (.str "s")
        (.cons "y" (.list (.cons (.bool true) (.cons (.int 2) .nil))) .nil))) .nil)

/-- The same mapping as `c6exA` with keys reordered at both levels. -/
def c6exB : JObj :=
  .cons "nested"
    (.dict (.cons "y" (.list (.cons (.bool true) (.cons (.int 2) .nil)))
      (.cons "x" (.str "s") .nil)))
    (.cons "alpha" (.int 1) .nil)

/-- Witness for C6 at concrete mappings. -/
theorem C6_compare_parameters_deep_equal_witness :
    wfParams c6exA = true ∧ wfParams c6exB = true ∧
      (compare_parameters c6exA c6exB = true ↔ deepEqObj c6exA c6exB = true) :=
  ⟨rfl, rfl, C6_compare_parameters_deep_equal c6exA c6exB rfl rfl⟩

/-! ### Python `str.replace` (render.py uses it for placeholder substitution) -/

/-- One fuel-driven pass of Python `str.replace`: scan left to right, replace
each non-overlapping occurrence of `pat`, and continue after the replacement
text.  `fuel` at least the length of the scanned list makes it total (each
step consumes at least one character). -/
def replFuel (pat rep : List Char) : Nat → List Char → List Char
  | _, [] => []
  | 0, s => s
  | fuel + 1, c :: rest =>
    if pat.isPrefixOf (c :: rest) ∧ pat ≠ [] then
      rep ++ replFuel pat rep fuel (List.drop pat.length (c :: rest))
    else
      c :: replFuel pat rep fuel rest

/-- Python `s.replace(pat, rep)` for the nonempty patterns `"@" + name` used
by the generators. -/
def pyReplace (s pat rep : String) : String :=
  String.mk (replFuel pat.data rep.data s.data.length s.data)

/-! ### Generator expansion (render.py lines 265-341, `recursive_replace` and
`run_generators`) -/

/-- Scalar parameter value fed by a generator (a TOML scalar; binary floating
point is outside the model). -/
inductive PVal where
  | pstr (s : String)
  | pint (n : Int)
  | pbool (b : Bool)

/-- Type-preserving injection used by `@raw(name)` substitution. -/
def pvalToJ : PVal → JValue
  | .pstr s => .str s
  | .pint n => .int n
  | .pbool b => .bool b

/-- Python `str(value)` of a scalar. -/
def pyStr : PVal → String
  | .pstr s => s
  | .pint n => String.mk (intDec n)
  | .pbool b => if b then "True" else "False"

/-! Source: render.py lines 265-282.  `recursive_replace` walks the entries of
a mapping: a string value equal to `"@raw(name)"` is replaced wholesale by the
parameter value (preserving its type), any other string value has `"@name"`
string-replaced, a mapping value is recursed into, and every other value
(sequences included) is left untouched. -/
mutual
def replV (pn : String) (pv : PVal) : JValue → JValue
  | .str s =>
    if s = "@raw(" ++ pn ++ ")" then pvalToJ pv
    else .str (pyReplace s ("@" ++ pn) (pyStr pv))
  | .dict kvs => .dict (replO pn pv kvs)
  | v => v
def replO (pn : String) (pv : PVal) : JObj → JObj
  | .nil => .nil
  | .cons k v tl => .cons k (replV pn pv v) (replO pn pv tl)
end

/-- A generator block: equal-length parameter value sequences and a template. -/
structure Generator where
  parameters : List (String × List PVal)
  template : JObj

/-- Stable insertion for the longest-name-first parameter order (Python
`sorted(items, key=lambda kv: -len(kv[0]))`, which is stable: an entry goes
after strictly longer names and before names of equal or shorter length seen
later). -/
def insParam (x : String × List PVal) :
    List (String × List PVal) → List (String × List PVal)
  | [] => [x]
  | y :: tl => if x.1.length < y.1.length then y :: insParam x tl else x :: y :: tl

/-- Parameter entries sorted by descending name length, stably. -/
def sortParamsDesc (l : List (String × List PVal)) : List (String × List PVal) :=
  l.foldr insParam []

/-- Heads of every value sequence (one row of `zip(*values)`). -/
def headsOf (ps : List (String × List PVal)) : List (String × PVal) :=
  ps.filterMap (fun p => p.2.head?.map (fun v => (p.1, v)))

/-- Tails of every value sequence. -/
def tailsOf (ps : List (String × List PVal)) : List (String × List PVal) :=
  ps.map (fun p => (p.1, p.2.tail))

/-- Python `zip(*(values for _, values in parameters))` paired back with the
parameter names: row `i` holds the `i`-th value of every (sorted) parameter. -/
def zipRows : Nat → List (String × List PVal) → List (List (String × PVal))
  | 0, _ => []
  | i + 1, ps => headsOf ps :: zipRows i (tailsOf ps)

/-- The length checks of `run_generators` (render.py lines 292-304): error if
a generator has no parameters or if the value sequences have different
lengths; otherwise produce the rows, with parameters sorted longest-name
first. -/
def genRows (g : Generator) : Except String (List (List (String × PVal))) :=
  match h : g.parameters.map (fun p => p.2.length) with
  | [] => .error "generator has no parameters"
  | c0 :: rest =>
    if (c0 :: rest).all (fun c => c = c0) then
      .ok (zipRows c0 (sortParamsDesc g.parameters))
    else .error "the parameters have different numbers of values"

/-- One row's name substitution (render.py lines 322-326): the template's
`name` string has `"@name"` replaced by `str(value)` for every parameter, in
the sorted order.  In the source this runs in the same loop as
`recursive_replace`; the two touch disjoint state, so they are folded
separately here. -/
def expandName (row : List (String × PVal)) (nm : String) : String :=
  row.foldl (fun acc p => pyReplace acc ("@" ++ p.1) (pyStr p.2)) nm

/-- One row's template substitution (render.py lines 327-331): apply
`recursive_replace` for every parameter of the row, in the sorted order. -/
def expandTemplate (row : List (String × PVal)) (entry : JObj) : JObj :=
  row.foldl (fun acc p => replO p.1 p.2 acc) entry

/-- Expansion of one `filters`/`tasks` generator (render.py lines 309-331):
for each row, deep-copy the template, read and delete its `name` entry
(`KeyError` if absent, `AttributeError` if not a string), substitute the name
and the remaining entry. -/
def expandGeneratorNamed (g : Generator) : Except String (List (String × JObj)) := do
  let rows ← genRows g
  rows.mapM (fun row =>
    match lookO "name" g.template with
    | some (.str nm) =>
      .ok (expandName row nm, expandTemplate row (removeKey "name" g.template))
    | some _ => .error "AttributeError: replace on a non-string name"
    | none => .error "KeyError: name")

/-- Expansion of one `jobs` generator (render.py lines 313-314, 332-333): the
copied template is substituted and appended whole; there is no name step. -/
def expandGeneratorJobs (g : Generator) : Except String (List JObj) := do
  let rows ← genRows g
  .ok (rows.map (fun row => expandTemplate row g.template))

/-- Insertion of generated named entries into the target collection
(render.py lines 334-339): error when a generated name already exists. -/
def insertGenerated (col : List (String × JObj)) :
    List (String × JObj) → Except String (List (String × JObj))
  | [] => .ok col
  | (nm, e) :: rest =>
    if (col.map (fun p => p.1)).contains nm then
      .error ("generated entry name already exists: " ++ nm)
    else insertGenerated (col ++ [(nm, e)]) rest

/-- A `filters`/`tasks` generator applied to its target collection. -/
def runGeneratorNamed (col : List (String × JObj)) (g : Generator) :
    Except String (List (String × JObj)) := do
  let entries ← expandGeneratorNamed g
  insertGenerated col entries

/-! ### Claims C7 and C8 -/

/-- The C7 generator: parameters `threshold = [1, 5, 10]`, template
`name = "as-@threshold"`, `suffix = "as@threshold"`. -/
def c7gen : Generator :=
  ⟨[("threshold", [.pint 1, .pint 5, .pint 10])],
    .cons "name" (.str "as-@threshold") (.cons "suffix" (.str "as@threshold") .nil)⟩

/-- Claim C7: expanding a generator whose parameters are threshold = [1, 5, 10]
with template name = "as-@threshold", suffix = "as@threshold" produces exactly
three entries, keyed as-1, as-5 and as-10 in the target collection, whose
suffix fields are as1, as5 and as10 respectively, and the entries stored
under those keys contain no name field. -/
theorem C7_generator_expansion_example :
    runGeneratorNamed [] c7gen =
      .ok [("as-1", .cons "suffix" (.str "as1") .nil),
        ("as-5", .cons "suffix" (.str "as5") .nil),
        ("as-10", .cons "suffix" (.str "as10") .nil)] ∧
      lookO "name" (.cons "suffix" (.str "as1") .nil) = none ∧
      lookO "name" (.cons "suffix" (.str "as5") .nil) = none ∧
      lookO "name" (.cons "suffix" (.str "as10") .nil) = none :=
  ⟨rfl, rfl, rfl, rfl⟩

/-- The C8 generator: parameters `threshold = [1]`, `threshold10 = [99]`, and
a template whose `value` field contains the placeholder `@threshold10`. -/
def c8gen : Generator :=
  ⟨[("threshold", [.pint 1]), ("threshold10", [.pint 99])],
    .cons "name" (.str "x") (.cons "value" (.str "@threshold10") .nil)⟩

/-- Claim C8: placeholder substitution applies parameters in order of
descending parameter-name length, so that with parameters threshold = [1] and
threshold10 = [99] a string containing @threshold10 is substituted with
threshold10's value 99 - never with threshold's value followed by the literal
text 10. -/
theorem C8_placeholder_precedence :
    (sortParamsDesc [("threshold", [PVal.pint 1]), ("threshold10", [PVal.pint 99])]).map
      (fun p => p.1) = ["threshold10", "threshold"] ∧
    runGeneratorNamed [] c8gen = .ok [("x", .cons "value" (.str "99") .nil)] ∧
    (JValue.str "99" : JValue) ≠ .str "110" :=
  ⟨rfl, rfl, fun h => absurd (JValue.str.inj h) (by decide)⟩

/-! ### Claim C10 -/

/-- Lookup along a path of keys through nested mappings. -/
def lookPath : List String → JObj → Option JValue
  | [], _ => none
  | [k], t => lookO k t
  | k :: k2 :: rest, t =>
    match lookO k t with
    | some (.dict q) => lookPath (k2 :: rest) q
    | _ => none

theorem lookO_replO (pn : String) (pv : PVal) (k : String) (t : JObj) :
    lookO k (replO pn pv t) = (lookO k t).map (replV pn pv) := by
  induction t using JObj_ind with
  | hnil => rfl
  | hcons k2 v tl ih =>
    have e : replO pn pv (.cons k2 v tl) = .cons k2 (replV pn pv v) (replO pn pv tl) := by
      simp [replO]
    rw [e, lookO_cons, lookO_cons]
    by_cases he : k = k2
    · simp [he]
    · rw [if_neg he, if_neg he]
      exact ih

theorem replV_list_eq (pn : String) (pv : PVal) (xs : JArr) :
    replV pn pv (.list xs) = .list xs := by
  simp [replV]

theorem replV_dict_eq (pn : String) (pv : PVal) (q : JObj) :
    replV pn pv (.dict q) = .dict (replO pn pv q) := by
  simp [replV]

theorem lookPath_replO_list (pn : String) (pv : PVal) :
    ∀ (path : List String) (t : JObj) (xs : JArr),
      lookPath path t = some (.list xs) → lookPath path (replO pn pv t) = some (.list xs) := by
  intro path
  induction path with
  | nil =>
    intro t xs h
    rw [lookPath] at h
    cases h
  | cons k rest ih =>
    intro t xs h
    cases rest with
    | nil =>
      rw [lookPath] at h ⊢
      rw [lookO_replO, h]
      simp only [Option.map_some']
      rw [replV_list_eq]
    | cons k2 rest2 =>
      rw [lookPath] at h ⊢
      rw [lookO_replO]
      cases hl : lookO k t with
      | none =>
        rw [hl] at h
        cases h
      | some v =>
        rw [hl] at h
        cases v with
        | dict q =>
          simp only [Option.map_some']
          rw [replV_dict_eq]
          exact ih q xs h
        | str s => cases h
        | int n => cases h
        | bool b => cases h
        | list ys => cases h

/-- Claim C10: placeholder substitution recurses only into nested mapping
values; a placeholder occurring inside an element of a sequence-valued field
(at any mapping depth of the template) is left completely unsubstituted in
the generated entry: the whole sequence value is preserved verbatim by
`expandTemplate`, which both the jobs path and the filters/tasks path of
`run_generators` apply to the copied template. -/
theorem C10_sequences_not_substituted
    (row : List (String × PVal)) (t : JObj) (path : List String) (xs : JArr)
    (h : lookPath path t = some (.list xs)) :
    lookPath path (expandTemplate row t) = some (.list xs) := by
  induction row generalizing t with
  | nil => exact h
  | cons p rest ih =>
    have e : expandTemplate (p :: rest) t = expandTemplate rest (replO p.1 p.2 t) := rfl
    rw [e]
    exact ih (replO p.1 p.2 t) (lookPath_replO_list p.1 p.2 path t xs h)

/-- The jobs-generator template of the shipped configuration: its `filters`
sequence contains the placeholder string `"arbiter-saturation-@threshold"`. -/
def c10tmpl : JObj :=
  .cons "name" (.str "job-name")
    (.cons "filters" (.list (.cons (.str "arbiter-saturation-@threshold") .nil)) .nil)

/-- Witness for C10: expanding the jobs template with `threshold = 1` leaves
the placeholder inside the `filters` sequence untouched. -/
theorem C10_sequences_not_substituted_witness :
    lookPath ["filters"] c10tmpl =
      some (.list (.cons (.str "arbiter-saturation-@threshold") .nil)) ∧
    lookPath ["filters"] (expandTemplate [("threshold", .pint 1)] c10tmpl) =
      some (.list (.cons (.str "arbiter-saturation-@threshold") .nil)) :=
  ⟨rfl, C10_sequences_not_substituted [("threshold", .pint 1)] c10tmpl ["filters"] _ rfl⟩

/-! ### Claim C1: task-pattern validation of the run command -/

/-- Python `==` between a bool and a str is always False: `bool` is an int
subtype and an int never compares equal to a str.  Models the per-key
equality probes of the membership test `found in configuration["tasks"]`,
which checks `found == key` against the (string) keys of the tasks
mapping. -/
def pyBoolEqStr (b : Bool) (s : String) : Bool := false

/-- Source: render.py lines 606-618.  For each pattern in the job's `tasks`
list the loop collects the fully matching task names and sets `found`; the
guard `if not found in configuration["tasks"]:` parses as
`not (found in configuration["tasks"])` - unary `not` binds looser than the
comparison operator `in` - so the unmatched-pattern error is raised exactly
when the boolean `found` is not a key of the tasks mapping.  `fullmatch`
abstracts the external regex engine (`re.compile(task).fullmatch`).  Returns
true iff some pattern raises the error. -/
def taskPatternsValidationRaises (fullmatch : String → String → Bool)
    (jobTasks taskKeys : List String) : Bool :=
  jobTasks.any (fun task =>
    let found := taskKeys.any (fun name => fullmatch task name)
    !(taskKeys.any (fun key => pyBoolEqStr found key)))

/-- The `expanded_tasks` list built by the validation (render.py lines
607-614): every task name fully matched by some pattern, in pattern order,
duplicates included.  The execution loop never reads it (claim C2). -/
def expandedTasksOf (fullmatch : String → String → Bool)
    (jobTasks taskKeys : List String) : List String :=
  jobTasks.flatMap (fun task => taskKeys.filter (fun name => fullmatch task name))

/-- Modelled regex semantics of the concrete pattern `colourtime-.+`: a full
match iff the name is `colourtime-` followed by at least one character. -/
def colourtimeFullmatch (pat name : String) : Bool :=
  pat = "colourtime-.+" && "colourtime-".data.isPrefixOf name.data && 11 < name.data.length

/-- The validation raises the unmatched-pattern error as soon as the job has
any task pattern at all, whatever the patterns, the task names and the regex
semantics: the boolean `found` is never a key of the string-keyed tasks
mapping, so the guard `not (found in configuration["tasks"])` is always
true. -/
theorem taskPatternsValidation_always_raises (fullmatch : String → String → Bool)
    (jobTasks taskKeys : List String) (h : jobTasks ≠ []) :
    taskPatternsValidationRaises fullmatch jobTasks taskKeys = true := by
  cases jobTasks with
  | nil => exact absurd rfl h
  | cons t rest => simp [taskPatternsValidationRaises, pyBoolEqStr]

/-- Claim C1 (code bug, evaluation at the failing input): with the single
pattern `colourtime-.+` and the single task name `colourtime-viridis` the
pattern fully matches a task name (the expansion is nonempty), so by the
claim the task-pattern validation succeeds and execution proceeds; but the
guard at render.py line 615, `if not found in configuration["tasks"]:`,
parses as `not (found in configuration["tasks"])`, and the boolean `found`
is never equal to any of the string keys of the tasks mapping, so the guard
is always true and the unmatched-task-pattern error is raised for matched
and unmatched patterns alike (see `taskPatternsValidation_always_raises` for
the general statement). -/
theorem C1_error_raised_despite_match :
    expandedTasksOf colourtimeFullmatch ["colourtime-.+"] ["colourtime-viridis"] =
      ["colourtime-viridis"] ∧
    taskPatternsValidationRaises colourtimeFullmatch ["colourtime-.+"] ["colourtime-viridis"] =
      true :=
  ⟨rfl, rfl⟩

/-! ### The run command executor (render.py lines 667-803)

The per-job execution is embedded as a trace-producing function.  External
collaborators are abstracted: the FILTERS table by the list of its keys, the
TASKS table by an association from type to output extension, filter/task
invocations and file copies by trace events, on-disk existence of the chain
artifact and of attachment targets by booleans, and `uuid.uuid4()` scratch
names by the loop index (uuid freshness is what the code relies on).  A
Python exception is a `crash` event that ends the trace. -/

/-- Association-list lookup (`d[k]`, `k in d`) for string-keyed dicts. -/
def alook {α : Type} (k : String) : List (String × α) → Option α
  | [] => none
  | (k2, v) :: tl => if k = k2 then some v else alook k tl

/-- Association-list update (`d[k] = v`): overwrite in place, else append. -/
def aset {α : Type} (k : String) (v : α) : List (String × α) → List (String × α)
  | [] => [(k, v)]
  | (k2, w) :: tl => if k = k2 then (k2, v) :: tl else (k2, w) :: aset k v tl

structure FilterSpec where
  ftype : String
  icon : String
  suffix : String
  parameters : JObj

structure TaskSpec where
  ttype : String
  icon : String
  parameters : JObj

structure Attachment where
  source : String
  target : String

/-- The persisted per-job state (`parameters.toml`). -/
structure StoredState where
  source : String
  filters : List (String × JObj)
  tasks : List (String × JObj)
  attachments : List (String × String)

structure Config where
  filters : List (String × FilterSpec)
  tasks : List (String × TaskSpec)
  sources : List (String × String)
  attachments : List (String × List Attachment)

structure Job where
  name : String
  jfilters : List String
  jtasks : List String

/-- File roles inside one job's processing. -/
inductive FPath where
  | src
  | scratch (i : Nat)
  | outPart
  | out

/-- The stage published by an atomic rename. -/
inductive StageTag where
  | attach (target : String)
  | filterStage (names : List String)
  | task (name : String)

/-- Observable execution events. -/
inductive Ev where
  | save (st : StoredState)
  | copyToPart (source target : String)
  | applyFilter (ftype fname : String) (input output : FPath)
  | runTask (ttype tname : String)
  | publish (tag : StageTag)
  | crash (msg : String)

structure RunEnv where
  force : Bool
  filterTypes : List String
  taskTypes : List (String × String)
  cfg : Config
  job : Job
  loaded : Option StoredState
  outputExists : Bool
  targetsOnDisk : List String

/-- Python: subscripting a `str` with a `str` raises `TypeError`.  Models
`attachment["target"]` where `attachment` is a key of the attachments
mapping (a job name string), since iterating a dict yields its keys. -/
def strSubscript (s idx : String) : Option String := none

/-- Source: render.py lines 696-713, the body of
`for attachment in configuration["attachments"]:` for one iterated value
(a dict key, hence a string).  The skip/copy logic is translated under the
subscripts; since subscripting a string by a string raises, it is
unreachable and the body crashes. -/
def attachmentBody (force : Bool) (targetsOnDisk : List String) (st : StoredState)
    (key : String) : List Ev × Option StoredState :=
  match strSubscript key "target", strSubscript key "source" with
  | some target, some source =>
    if !force && (alook target st.attachments).isSome && targetsOnDisk.contains target then
      ([], some { st with attachments := aset target source st.attachments })
    else
      ([.copyToPart source target, .publish (.attach target)],
        some { st with attachments := aset target source st.attachments })
  | _, _ => ([.crash "TypeError: string indices must be integers"], none)

/-- Source: render.py line 695, the loop over the attachments mapping (its
keys). -/
def attachKeysLoop (force : Bool) (targetsOnDisk : List String) :
    List String → StoredState → List Ev × Option StoredState
  | [], st => ([], some st)
  | key :: rest, st =>
    match attachmentBody force targetsOnDisk st key with
    | (evs, none) => (evs, none)
    | (evs, some st2) =>
      match attachKeysLoop force targetsOnDisk rest st2 with
      | (evs2, r) => (evs ++ evs2, r)

/-- Source: render.py lines 683-694: load the state file; if it records no
source or a different source, reset the record to just the configured source
and persist it at once; ensure the three sub-mappings exist. -/
def initPhase (source : String) (loaded : Option StoredState) : List Ev × StoredState :=
  match loaded with
  | some p => if p.source = source then ([], p) else
      ([.save ⟨source, [], [], []⟩], ⟨source, [], [], []⟩)
  | none => ([.save ⟨source, [], [], []⟩], ⟨source, [], [], []⟩)

/-- Source: render.py lines 714-737, the single-filter fast path: skip iff
not forcing, the state holds a snapshot for the filter name whose parameters
compare equal, and the artifact exists; otherwise apply the filter from the
job source into the temp path, atomically publish, update and persist
state. -/
def singleFilterPhase (force : Bool) (filterTypes : List String)
    (cfgFilters : List (String × FilterSpec)) (fname : String) (st : StoredState)
    (outputExists : Bool) : List Ev × Option (StoredState × Bool) :=
  match alook fname cfgFilters with
  | none => ([.crash ("KeyError: " ++ fname)], none)
  | some fs =>
    if !force && (match alook fname st.filters with
        | some p => compare_parameters p fs.parameters
        | none => false) && outputExists then
      ([], some (st, outputExists))
    else if filterTypes.contains fs.ftype then
      ([.applyFilter fs.ftype fname .src .outPart, .publish (.filterStage [fname]),
        .save { st with filters := aset fname fs.parameters st.filters }],
        some ({ st with filters := aset fname fs.parameters st.filters }, true))
    else ([.crash ("KeyError: FILTERS " ++ fs.ftype)], none)

/-- Source: render.py lines 740-751, the lazy evaluation of
`all(name in stored and compare_parameters(stored[name], configured[name]))`:
stops at the first missing snapshot (False), raises `KeyError` when a
snapshot exists but the filter is not configured. -/
def chainCondEval (cfgFilters : List (String × FilterSpec)) (st : StoredState) :
    List String → Except String Bool
  | [] => .ok true
  | f :: rest =>
    match alook f st.filters with
    | none => .ok false
    | some p =>
      match alook f cfgFilters with
      | none => .error ("KeyError: " ++ f)
      | some fs =>
        if compare_parameters p fs.parameters then chainCondEval cfgFilters st rest
        else .ok false

/-- Source: render.py lines 760-775, the chain loop: the filter at index `i`
reads the previous output (the job source for `i = 0`), writes the temp-named
final artifact when last and a fresh scratch file otherwise, and records its
parameters in the in-memory state. -/
def chainLoop (filterTypes : List String) (cfgFilters : List (String × FilterSpec)) :
    List String → Nat → Nat → StoredState → List Ev × Option StoredState
  | [], _, _, st => ([], some st)
  | f :: rest, i, n, st =>
    match alook f cfgFilters with
    | none => ([.crash ("KeyError: " ++ f)], none)
    | some fs =>
      if filterTypes.contains fs.ftype then
        let inp := if i = 0 then FPath.src else FPath.scratch (i - 1)
        let outp := if i = n - 1 then FPath.outPart else FPath.scratch i
        let st2 := { st with filters := aset f fs.parameters st.filters }
        match chainLoop filterTypes cfgFilters rest (i + 1) n st2 with
        | (evs, r) => (.applyFilter fs.ftype f inp outp :: evs, r)
      else ([.crash ("KeyError: FILTERS " ++ fs.ftype)], none)

/-- Source: render.py lines 738-777, the multi-filter branch: skip the whole
chain iff not forcing, every filter's stored snapshot compares equal to its
configured parameters, and the final artifact exists; otherwise re-run the
whole chain from the original source and, after the loop, atomically publish
the temp-named artifact and persist the state once.  (With an empty filter
list the rename of the never-written temp artifact is modelled as a plain
publish; the configuration schema requires at least one filter.) -/
def multiFilterPhase (force : Bool) (filterTypes : List String)
    (cfgFilters : List (String × FilterSpec)) (jfilters : List String) (st : StoredState)
    (outputExists : Bool) : List Ev × Option (StoredState × Bool) :=
  match (if force then Except.ok false else chainCondEval cfgFilters st jfilters) with
  | .error e => ([.crash e], none)
  | .ok b =>
    if b && outputExists then ([], some (st, outputExists))
    else
      match chainLoop filterTypes cfgFilters jfilters 0 jfilters.length st with
      | (evs, none) => (evs, none)
      | (evs, some st2) =>
        (evs ++ [.publish (.filterStage jfilters), .save st2], some (st2, true))

/-- Source: render.py line 714: the single-filter path is taken exactly when
the job has one filter, the chain branch otherwise. -/
def filterPhase (force : Bool) (filterTypes : List String)
    (cfgFilters : List (String × FilterSpec)) (jfilters : List String) (st : StoredState)
    (outputExists : Bool) : List Ev × Option (StoredState × Bool) :=
  match jfilters with
  | [f] => singleFilterPhase force filterTypes cfgFilters f st outputExists
  | _ => multiFilterPhase force filterTypes cfgFilters jfilters st outputExists

/-- Source: render.py lines 778-803, the task loop: each entry of
`job["tasks"]` (the raw pattern strings, not the expanded names) is looked up
in the tasks mapping (`KeyError` when absent), its output path is built from
the TASKS table (`KeyError` for an unknown type), then skip iff not forcing,
a matching snapshot is stored, and the chain artifact exists; otherwise run
the task, atomically publish, update and persist state. -/
def taskIter (force : Bool) (taskTypes : List (String × String))
    (cfgTasks : List (String × TaskSpec)) (outputExists : Bool) :
    List String → StoredState → List Ev × Option StoredState
  | [], st => ([], some st)
  | tname :: rest, st =>
    match alook tname cfgTasks with
    | none => ([.crash ("KeyError: " ++ tname)], none)
    | some ts =>
      match alook ts.ttype taskTypes with
      | none => ([.crash ("KeyError: TASKS " ++ ts.ttype)], none)
      | some _ext =>
        if !force && (match alook tname st.tasks with
            | some p => compare_parameters p ts.parameters
            | none => false) && outputExists then
          taskIter force taskTypes cfgTasks outputExists rest st
        else
          match taskIter force taskTypes cfgTasks outputExists rest
            { st with tasks := aset tname ts.parameters st.tasks } with
          | (evs, r) =>
            (.runTask ts.ttype tname :: .publish (.task tname) ::
              .save { st with tasks := aset tname ts.parameters st.tasks } :: evs, r)

/-- Source: render.py lines 667-803, one job of the run command: resolve the
source (line 671), read each filter's suffix for the directory name (lines
672-675), initialize the state record, then the attachments loop, the filter
stage and the task loop, each cut short by the first crash. -/
def runJob (env : RunEnv) : List Ev :=
  match alook env.job.name env.cfg.sources with
  | none => [.crash ("KeyError: " ++ env.job.name)]
  | some source =>
    match env.job.jfilters.find? (fun f => (alook f env.cfg.filters).isNone) with
    | some f => [.crash ("KeyError: " ++ f)]
    | none =>
      match initPhase source env.loaded with
      | (evs0, st0) =>
        match attachKeysLoop env.force env.targetsOnDisk
          (env.cfg.attachments.map (fun p => p.1)) st0 with
        | (evs1, none) => evs0 ++ evs1
        | (evs1, some st1) =>
          match filterPhase env.force env.filterTypes env.cfg.filters env.job.jfilters st1
            env.outputExists with
          | (evs2, none) => evs0 ++ evs1 ++ evs2
          | (evs2, some (st2, outEx2)) =>
            match taskIter env.force env.taskTypes env.cfg.tasks outEx2 env.job.jtasks st2 with
            | (evs3, _) => evs0 ++ evs1 ++ evs2 ++ evs3

/-! ### Claims C2 and C3 -/

/-- A job whose tasks list holds the pattern `colourtime-.+` while the tasks
mapping's only key is `colourtime-viridis`; state already matches the source
and the single filter has no stored snapshot, so the filter runs. -/
def c2env : RunEnv := {
  force := false
  filterTypes := ["default"]
  taskTypes := [("colourtime", ".png")]
  cfg := {
    filters := [("default", ⟨"default", "i", "", .nil⟩)]
    tasks := [("colourtime-viridis", ⟨"colourtime", "i", .nil⟩)]
    sources := [("dog", "/data/dog.es")]
    attachments := []
  }
  job := ⟨"dog", ["default"], ["colourtime-.+"]⟩
  loaded := some ⟨"/data/dog.es", [], [], []⟩
  outputExists := false
  targetsOnDisk := []
}

/-- Claim C2 (code bug, evaluation at the failing input): pattern expansion
(as performed by the validation) resolves `colourtime-.+` to
`colourtime-viridis`, but the execution loop iterates the raw pattern strings
of `job["tasks"]` and looks each up as a literal key of the tasks mapping, so
it raises `KeyError: colourtime-.+` and invokes no task at all. -/
theorem C2_task_loop_uses_raw_patterns :
    expandedTasksOf colourtimeFullmatch ["colourtime-.+"] ["colourtime-viridis"] =
      ["colourtime-viridis"] ∧
    runJob c2env =
      [.applyFilter "default" "default" .src .outPart, .publish (.filterStage ["default"]),
        .save ⟨"/data/dog.es", [("default", .nil)], [], []⟩,
        .crash "KeyError: colourtime-.+"] ∧
    (runJob c2env).all
      (fun e => match e with | .runTask _ _ => false | _ => true) = true :=
  ⟨rfl, rfl, rfl⟩

/-- A job with one configured attachment whose target is absent on disk and
force not set: per claim C3 the source should be copied and atomically
renamed into place. -/
def c3env : RunEnv := {
  force := false
  filterTypes := ["default"]
  taskTypes := [("video", ".mp4")]
  cfg := {
    filters := [("default", ⟨"default", "i", "", .nil⟩)]
    tasks := [("video-real-time", ⟨"video", "i", .nil⟩)]
    sources := [("dog", "/data/dog.es")]
    attachments := [("dog", [⟨"/data/dog.txt", "dog.txt"⟩])]
  }
  job := ⟨"dog", ["default"], ["video-real-time"]⟩
  loaded := none
  outputExists := false
  targetsOnDisk := []
}

/-- Claim C3 (code bug, evaluation at the failing input): with one configured
attachment, force off and the target not on disk, the run neither skips nor
copies: the loop `for attachment in configuration["attachments"]:` iterates
the keys of the attachments mapping (job-name strings) and the first
subscript `attachment["target"]` raises `TypeError`. -/
theorem C3_attachment_loop_type_error :
    runJob c3env =
      [.save ⟨"/data/dog.es", [], [], []⟩,
        .crash "TypeError: string indices must be integers"] ∧
    (runJob c3env).all
      (fun e => match e with
        | .copyToPart _ _ => false
        | .publish (.attach _) => false
        | _ => true) = true :=
  ⟨rfl, rfl⟩

/-! ### Claim C4: state is persisted at every stage boundary

A scanner over execution traces: after every published stage, a `save` whose
record marks all stages completed so far must occur before any further stage
work (copy, filter application or task run) begins. -/

structure ScanSt where
  pendingSave : Bool
  doneAttach : List String
  doneFilters : List String
  doneTasks : List String

/-- The saved record marks every stage completed so far as done. -/
def marksAll (st : StoredState) (sc : ScanSt) : Bool :=
  sc.doneAttach.all (fun t => (alook t st.attachments).isSome) &&
  sc.doneFilters.all (fun f => (alook f st.filters).isSome) &&
  sc.doneTasks.all (fun t => (alook t st.tasks).isSome)

def noteTag (tag : StageTag) (sc : ScanSt) : ScanSt :=
  match tag with
  | .attach t => ⟨true, t :: sc.doneAttach, sc.doneFilters, sc.doneTasks⟩
  | .filterStage fs => ⟨true, sc.doneAttach, fs ++ sc.doneFilters, sc.doneTasks⟩
  | .task t => ⟨true, sc.doneAttach, sc.doneFilters, t :: sc.doneTasks⟩

def scanSt : ScanSt → List Ev → Option ScanSt
  | sc, [] => some sc
  | sc, .save st :: rest =>
    if marksAll st sc then scanSt ⟨false, sc.doneAttach, sc.doneFilters, sc.doneTasks⟩ rest
    else none
  | sc, .publish tag :: rest => scanSt (noteTag tag sc) rest
  | sc, .copyToPart _ _ :: rest => if sc.pendingSave then none else scanSt sc rest
  | sc, .applyFilter _ _ _ _ :: rest => if sc.pendingSave then none else scanSt sc rest
  | sc, .runTask _ _ :: rest => if sc.pendingSave then none else scanSt sc rest
  | sc, .crash _ :: rest => scanSt sc rest

/-- The trace property of claim C4. -/
def persistedAtBoundaries (tr : List Ev) : Bool := (scanSt ⟨false, [], [], []⟩ tr).isSome

theorem scanSt_append (a b : List Ev) :
    ∀ sc, scanSt sc (a ++ b) = (scanSt sc a).bind (fun sc2 => scanSt sc2 b) := by
  induction a with
  | nil => intro sc; rfl
  | cons ev rest ih =>
    intro sc
    cases ev with
    | save st =>
      rw [List.cons_append, scanSt, scanSt]
      by_cases hm : marksAll st sc = true
      · rw [if_pos hm, if_pos hm, ih]
      · rw [if_neg hm, if_neg hm]
        rfl
    | publish tag =>
      rw [List.cons_append, scanSt, scanSt, ih]
    | copyToPart a2 b2 =>
      rw [List.cons_append, scanSt, scanSt]
      by_cases hp : sc.pendingSave = true
      · rw [if_pos hp, if_pos hp]
        rfl
      · rw [if_neg hp, if_neg hp, ih]
    | applyFilter a2 b2 c2 d2 =>
      rw [List.cons_append, scanSt, scanSt]
      by_cases hp : sc.pendingSave = true
      · rw [if_pos hp, if_pos hp]
        rfl
      · rw [if_neg hp, if_neg hp, ih]
    | runTask a2 b2 =>
      rw [List.cons_append, scanSt, scanSt]
      by_cases hp : sc.pendingSave = true
      · rw [if_pos hp, if_pos hp]
        rfl
      · rw [if_neg hp, if_neg hp, ih]
    | crash m =>
      rw [List.cons_append, scanSt, scanSt, ih]

theorem alook_aset_self {α : Type} (k : String) (v : α) (l : List (String × α)) :
    alook k (aset k v l) = some v := by
  induction l with
  | nil => simp [aset, alook]
  | cons p tl ih =>
    rw [aset]
    by_cases he : k = p.1
    · rw [if_pos he, alook, if_pos he]
    · rw [if_neg he, alook, if_neg he]
      exact ih

theorem alook_aset_isSome_mono {α : Type} (k k2 : String) (v : α) (l : List (String × α))
    (h : (alook k l).isSome = true) : (alook k (aset k2 v l)).isSome = true := by
  induction l with
  | nil => simp [alook] at h
  | cons p tl ih =>
    rw [alook] at h
    rw [aset]
    by_cases h2 : k2 = p.1
    · rw [if_pos h2, alook]
      by_cases he : k = p.1
      · rw [if_pos he]
        rfl
      · rw [if_neg he]
        rw [if_neg he] at h
        exact h
    · rw [if_neg h2, alook]
      by_cases he : k = p.1
      · rw [if_pos he]
        rfl
      · rw [if_neg he]
        rw [if_neg he] at h
        exact ih h

theorem marksAll_set_filters (st : StoredState) (sc : ScanSt) (f : String) (p : JObj)
    (h : marksAll st sc = true) :
    marksAll { st with filters := aset f p st.filters } sc = true := by
  rw [marksAll, Bool.and_eq_true, Bool.and_eq_true] at h
  obtain ⟨⟨h1, h2⟩, h3⟩ := h
  rw [marksAll, Bool.and_eq_true, Bool.and_eq_true]
  refine ⟨⟨h1, ?_⟩, h3⟩
  rw [List.all_eq_true] at h2 ⊢
  intro f2 hf2
  exact alook_aset_isSome_mono f2 f p st.filters (h2 f2 hf2)

theorem marksAll_set_tasks (st : StoredState) (sc : ScanSt) (t : String) (p : JObj)
    (h : marksAll st sc = true) :
    marksAll { st with tasks := aset t p st.tasks } sc = true := by
  rw [marksAll, Bool.and_eq_true, Bool.and_eq_true] at h
  obtain ⟨⟨h1, h2⟩, h3⟩ := h
  rw [marksAll, Bool.and_eq_true, Bool.and_eq_true]
  refine ⟨⟨h1, h2⟩, ?_⟩
  rw [List.all_eq_true] at h3 ⊢
  intro t2 ht2
  exact alook_aset_isSome_mono t2 t p st.tasks (h3 t2 ht2)

/-- The scanner invariant between stages: no save pending and the in-memory
record marks everything completed so far. -/
def Inv (sc : ScanSt) (st : StoredState) : Prop :=
  sc.pendingSave = false ∧ marksAll st sc = true

theorem marksAll_empty_done (st : StoredState) (b : Bool) :
    marksAll st ⟨b, [], [], []⟩ = true := rfl

theorem marksAll_cons_filter (st : StoredState) (b b2 : Bool)
    (da df dt : List String) (f : String)
    (h : marksAll st ⟨b, da, df, dt⟩ = true) (hf : (alook f st.filters).isSome = true) :
    marksAll st ⟨b2, da, f :: df, dt⟩ = true := by
  rw [marksAll, Bool.and_eq_true, Bool.and_eq_true] at h
  obtain ⟨⟨h1, h2⟩, h3⟩ := h
  rw [marksAll, Bool.and_eq_true, Bool.and_eq_true]
  exact ⟨⟨h1, by rw [List.all_cons, Bool.and_eq_true]; exact ⟨hf, h2⟩⟩, h3⟩

theorem marksAll_cons_task (st : StoredState) (b b2 : Bool)
    (da df dt : List String) (t : String)
    (h : marksAll st ⟨b, da, df, dt⟩ = true) (ht : (alook t st.tasks).isSome = true) :
    marksAll st ⟨b2, da, df, t :: dt⟩ = true := by
  rw [marksAll, Bool.and_eq_true, Bool.and_eq_true] at h
  obtain ⟨⟨h1, h2⟩, h3⟩ := h
  rw [marksAll, Bool.and_eq_true, Bool.and_eq_true]
  exact ⟨⟨h1, h2⟩, by rw [List.all_cons, Bool.and_eq_true]; exact ⟨ht, h3⟩⟩

theorem marksAll_state_change (st stF : StoredState) (sc : ScanSt)
    (h : marksAll st sc = true)
    (hts : stF.tasks = st.tasks) (hat : stF.attachments = st.attachments)
    (hmono : ∀ k, (alook k st.filters).isSome = true → (alook k stF.filters).isSome = true) :
    marksAll stF sc = true := by
  rw [marksAll, Bool.and_eq_true, Bool.and_eq_true] at h
  obtain ⟨⟨h1, h2⟩, h3⟩ := h
  rw [marksAll, Bool.and_eq_true, Bool.and_eq_true, hts, hat]
  refine ⟨⟨h1, ?_⟩, h3⟩
  rw [List.all_eq_true] at h2 ⊢
  intro f hf
  exact hmono f (h2 f hf)

theorem marksAll_append_filters (st : StoredState) (b b2 : Bool)
    (da df dt : List String) (names : List String)
    (h : marksAll st ⟨b, da, df, dt⟩ = true)
    (hn : ∀ f ∈ names, (alook f st.filters).isSome = true) :
    marksAll st ⟨b2, da, names ++ df, dt⟩ = true := by
  rw [marksAll, Bool.and_eq_true, Bool.and_eq_true] at h
  obtain ⟨⟨h1, h2⟩, h3⟩ := h
  rw [marksAll, Bool.and_eq_true, Bool.and_eq_true]
  refine ⟨⟨h1, ?_⟩, h3⟩
  rw [List.all_eq_true]
  intro f hf
  rcases List.mem_append.mp hf with hf | hf
  · exact hn f hf
  · exact List.all_eq_true.mp h2 f hf

/-! Phase lemmas: every phase's trace passes the scanner and re-establishes
the invariant on its resulting state. -/

theorem attachKeysLoop_shape (force : Bool) (targets : List String) :
    ∀ (keys : List String) (st : StoredState),
      attachKeysLoop force targets keys st = ([], some st) ∨
      attachKeysLoop force targets keys st =
        ([.crash "TypeError: string indices must be integers"], none) := by
  intro keys st
  cases keys with
  | nil => exact Or.inl rfl
  | cons key rest => exact Or.inr rfl

theorem initPhase_scan (source : String) (loaded : Option StoredState) :
    ∀ evs0 st0, initPhase source loaded = (evs0, st0) →
      scanSt ⟨false, [], [], []⟩ evs0 = some ⟨false, [], [], []⟩ := by
  intro evs0 st0 h
  cases loaded with
  | none =>
    rw [initPhase, Prod.mk.injEq] at h
    rw [← h.1]
    rfl
  | some p =>
    rw [initPhase] at h
    by_cases he : p.source = source
    · rw [if_pos he, Prod.mk.injEq] at h
      rw [← h.1]
      rfl
    · rw [if_neg he, Prod.mk.injEq] at h
      rw [← h.1]
      rfl

theorem singleFilterPhase_scan (force : Bool) (ft : List String)
    (cf : List (String × FilterSpec)) (f : String) (st : StoredState) (oe : Bool)
    (sc : ScanSt) (hInv : Inv sc st) :
    ∀ evs r, singleFilterPhase force ft cf f st oe = (evs, r) →
      ∃ sc2, scanSt sc evs = some sc2 ∧ ∀ st2 b2, r = some (st2, b2) → Inv sc2 st2 := by
  intro evs r h
  rw [singleFilterPhase] at h
  cases halook : alook f cf with
  | none =>
    rw [halook, Prod.mk.injEq] at h
    refine ⟨sc, ?_, ?_⟩
    · rw [← h.1]
      rfl
    · intro st2 b2 hr
      rw [← h.2] at hr
      cases hr
  | some fs =>
    rw [halook] at h
    dsimp only at h
    by_cases hskip : (!force && (match alook f st.filters with
        | some p => compare_parameters p fs.parameters
        | none => false) && oe) = true
    · rw [if_pos hskip, Prod.mk.injEq] at h
      refine ⟨sc, ?_, ?_⟩
      · rw [← h.1]
        rfl
      · intro st2 b2 hr
        rw [← h.2] at hr
        obtain ⟨he1, _⟩ := Prod.mk.injEq _ _ _ _ ▸ Option.some.inj hr
        rw [← he1]
        exact hInv
    · rw [if_neg hskip] at h
      by_cases htype : ft.contains fs.ftype = true
      · rw [if_pos htype, Prod.mk.injEq] at h
        obtain ⟨sca, scb, scc, scd⟩ := sc
        obtain ⟨hp, hm⟩ := hInv
        simp only at hp
        subst hp
        refine ⟨⟨false, scb, f :: scc, scd⟩, ?_, ?_⟩
        · rw [← h.1]
          rw [scanSt, if_neg (by simp), scanSt, noteTag, scanSt]
          rw [if_pos ?_]
          · rfl
          · have hm2 : marksAll { st with filters := aset f fs.parameters st.filters }
                ⟨false, scb, scc, scd⟩ = true :=
              marksAll_set_filters st ⟨false, scb, scc, scd⟩ f fs.parameters hm
            exact marksAll_cons_filter _ false true scb scc scd f hm2
              (by rw [alook_aset_self]; rfl)
        · intro st2 b2 hr
          rw [← h.2] at hr
          obtain ⟨he1, _⟩ := Prod.mk.injEq _ _ _ _ ▸ Option.some.inj hr
          constructor
          · rfl
          · rw [← he1]
            have hm2 : marksAll { st with filters := aset f fs.parameters st.filters }
                ⟨false, scb, scc, scd⟩ = true :=
              marksAll_set_filters st ⟨false, scb, scc, scd⟩ f fs.parameters hm
            exact marksAll_cons_filter _ false false scb scc scd f hm2
              (by rw [alook_aset_self]; rfl)
      · rw [if_neg htype, Prod.mk.injEq] at h
        refine ⟨sc, ?_, ?_⟩
        · rw [← h.1]
          rfl
        · intro st2 b2 hr
          rw [← h.2] at hr
          cases hr

theorem chainLoop_props (filterTypes : List String) (cfgFilters : List (String × FilterSpec)) :
    ∀ (names : List String) (i n : Nat) (st : StoredState) (evs : List Ev)
      (r : Option StoredState), chainLoop filterTypes cfgFilters names i n st = (evs, r) →
      (∀ sc : ScanSt, sc.pendingSave = false → scanSt sc evs = some sc) ∧
      (∀ st2, r = some st2 →
        st2.tasks = st.tasks ∧ st2.attachments = st.attachments ∧
        (∀ k, (alook k st.filters).isSome = true → (alook k st2.filters).isSome = true) ∧
        (∀ f ∈ names, (alook f st2.filters).isSome = true)) := by
  intro names
  induction names with
  | nil =>
    intro i n st evs r h
    rw [chainLoop, Prod.mk.injEq] at h
    constructor
    · intro sc _
      rw [← h.1]
      rfl
    · intro st2 hr
      rw [← h.2] at hr
      obtain rfl := Option.some.inj hr
      exact ⟨rfl, rfl, fun k hk => hk, fun f hf => absurd hf (List.not_mem_nil f)⟩
  | cons f rest ih =>
    intro i n st evs r h
    rw [chainLoop] at h
    cases halook : alook f cfgFilters with
    | none =>
      rw [halook] at h
      dsimp only at h
      rw [Prod.mk.injEq] at h
      constructor
      · intro sc _
        rw [← h.1]
        rfl
      · intro st2 hr
        rw [← h.2] at hr
        cases hr
    | some fs =>
      rw [halook] at h
      dsimp only at h
      by_cases htype : filterTypes.contains fs.ftype = true
      · rw [if_pos htype] at h
        rcases hrec : chainLoop filterTypes cfgFilters rest (i + 1) n
          { st with filters := aset f fs.parameters st.filters } with ⟨evs2, r2⟩
        rw [hrec] at h
        rw [Prod.mk.injEq] at h
        obtain ⟨hih1, hih2⟩ := ih (i + 1) n _ evs2 r2 hrec
        constructor
        · intro sc hp
          rw [← h.1, scanSt, if_neg (by rw [hp]; simp)]
          exact hih1 sc hp
        · intro st2 hr
          rw [← h.2] at hr
          obtain ⟨ht, ha, hmono, hnames⟩ := hih2 st2 hr
          refine ⟨ht, ha, ?_, ?_⟩
          · intro k hk
            exact hmono k (alook_aset_isSome_mono k f fs.parameters st.filters hk)
          · intro g hg
            rcases List.mem_cons.mp hg with hg | hg
            · subst hg
              exact hmono g (by rw [alook_aset_self]; rfl)
            · exact hnames g hg
      · rw [if_neg htype, Prod.mk.injEq] at h
        constructor
        · intro sc _
          rw [← h.1]
          rfl
        · intro st2 hr
          rw [← h.2] at hr
          cases hr

theorem multiFilterPhase_scan (force : Bool) (ft : List String)
    (cf : List (String × FilterSpec)) (jf : List String) (st : StoredState) (oe : Bool)
    (sc : ScanSt) (hInv : Inv sc st) :
    ∀ evs r, multiFilterPhase force ft cf jf st oe = (evs, r) →
      ∃ sc2, scanSt sc evs = some sc2 ∧ ∀ st2 b2, r = some (st2, b2) → Inv sc2 st2 := by
  intro evs r h
  rw [multiFilterPhase] at h
  cases hcond : (if force then Except.ok false else chainCondEval cf st jf) with
  | error e =>
    rw [hcond] at h
    dsimp only at h
    rw [Prod.mk.injEq] at h
    refine ⟨sc, ?_, ?_⟩
    · rw [← h.1]
      rfl
    · intro st2 b2 hr
      rw [← h.2] at hr
      cases hr
  | ok b =>
    rw [hcond] at h
    dsimp only at h
    by_cases hb : (b && oe) = true
    · rw [if_pos hb, Prod.mk.injEq] at h
      refine ⟨sc, ?_, ?_⟩
      · rw [← h.1]
        rfl
      · intro st2 b2 hr
        rw [← h.2] at hr
        obtain ⟨he1, _⟩ := Prod.mk.injEq _ _ _ _ ▸ Option.some.inj hr
        rw [← he1]
        exact hInv
    · rw [if_neg hb] at h
      rcases hloop : chainLoop ft cf jf 0 jf.length st with ⟨evs2, r2⟩
      rw [hloop] at h
      obtain ⟨hl1, hl2⟩ := chainLoop_props ft cf jf 0 jf.length st evs2 r2 hloop
      cases r2 with
      | none =>
        dsimp only at h
        rw [Prod.mk.injEq] at h
        refine ⟨sc, ?_, ?_⟩
        · rw [← h.1]
          exact hl1 sc hInv.1
        · intro st2 b2 hr
          rw [← h.2] at hr
          cases hr
      | some stF =>
        dsimp only at h
        rw [Prod.mk.injEq] at h
        obtain ⟨ht, ha, hmono, hnames⟩ := hl2 stF rfl
        obtain ⟨sca, scb, scc, scd⟩ := sc
        obtain ⟨hp, hm⟩ := hInv
        simp only at hp
        subst hp
        have hmF : marksAll stF ⟨false, scb, scc, scd⟩ = true :=
          marksAll_state_change st stF _ hm ht ha hmono
        have hmF2 : marksAll stF ⟨true, scb, jf ++ scc, scd⟩ = true :=
          marksAll_append_filters stF false true scb scc scd jf hmF hnames
        refine ⟨⟨false, scb, jf ++ scc, scd⟩, ?_, ?_⟩
        · rw [← h.1, scanSt_append, hl1 _ rfl]
          rw [Option.some_bind]
          rw [scanSt, noteTag, scanSt, if_pos hmF2]
          rfl
        · intro st2 b2 hr
          rw [← h.2] at hr
          obtain ⟨he1, _⟩ := Prod.mk.injEq _ _ _ _ ▸ Option.some.inj hr
          refine ⟨rfl, ?_⟩
          rw [← he1]
          exact marksAll_append_filters stF false false scb scc scd jf hmF hnames

theorem filterPhase_scan (force : Bool) (ft : List String)
    (cf : List (String × FilterSpec)) (jf : List String) (st : StoredState) (oe : Bool)
    (sc : ScanSt) (hInv : Inv sc st) :
    ∀ evs r, filterPhase force ft cf jf st oe = (evs, r) →
      ∃ sc2, scanSt sc evs = some sc2 ∧ ∀ st2 b2, r = some (st2, b2) → Inv sc2 st2 := by
  intro evs r h
  cases jf with
  | nil => exact multiFilterPhase_scan force ft cf [] st oe sc hInv evs r h
  | cons f tl =>
    cases tl with
    | nil => exact singleFilterPhase_scan force ft cf f st oe sc hInv evs r h
    | cons f2 tl2 =>
      exact multiFilterPhase_scan force ft cf (f :: f2 :: tl2) st oe sc hInv evs r h

theorem taskIter_scan (force : Bool) (tT : List (String × String))
    (cT : List (String × TaskSpec)) (oe : Bool) :
    ∀ (names : List String) (st : StoredState) (sc : ScanSt), Inv sc st →
      ∀ evs r, taskIter force tT cT oe names st = (evs, r) →
        (scanSt sc evs).isSome = true := by
  intro names
  induction names with
  | nil =>
    intro st sc _ evs r h
    rw [taskIter, Prod.mk.injEq] at h
    rw [← h.1]
    rfl
  | cons tname rest ih =>
    intro st sc hInv evs r h
    rw [taskIter] at h
    cases halook : alook tname cT with
    | none =>
      rw [halook] at h
      dsimp only at h
      rw [Prod.mk.injEq] at h
      rw [← h.1]
      rfl
    | some ts =>
      rw [halook] at h
      dsimp only at h
      cases hext : alook ts.ttype tT with
      | none =>
        rw [hext] at h
        dsimp only at h
        rw [Prod.mk.injEq] at h
        rw [← h.1]
        rfl
      | some ext =>
        rw [hext] at h
        dsimp only at h
        by_cases hskip : (!force && (match alook tname st.tasks with
            | some p => compare_parameters p ts.parameters
            | none => false) && oe) = true
        · rw [if_pos hskip] at h
          exact ih st sc hInv evs r h
        · rw [if_neg hskip] at h
          rcases hrec : taskIter force tT cT oe rest
            { st with tasks := aset tname ts.parameters st.tasks } with ⟨evs2, r2⟩
          rw [hrec] at h
          rw [Prod.mk.injEq] at h
          obtain ⟨sca, scb, scc, scd⟩ := sc
          obtain ⟨hp, hm⟩ := hInv
          simp only at hp
          subst hp
          have hm2 : marksAll { st with tasks := aset tname ts.parameters st.tasks }
              ⟨false, scb, scc, scd⟩ = true :=
            marksAll_set_tasks st ⟨false, scb, scc, scd⟩ tname ts.parameters hm
          have hm3 : marksAll { st with tasks := aset tname ts.parameters st.tasks }
              ⟨true, scb, scc, tname :: scd⟩ = true :=
            marksAll_cons_task _ false true scb scc scd tname hm2
              (by rw [alook_aset_self]; rfl)
          rw [← h.1, scanSt, if_neg (by simp), scanSt, noteTag, scanSt, if_pos hm3]
          exact ih _ ⟨false, scb, scc, tname :: scd⟩
            ⟨rfl, marksAll_cons_task _ false false scb scc scd tname hm2
              (by rw [alook_aset_self]; rfl)⟩ evs2 r2 hrec

/-- Claim C4: after every stage of a job (each attachment copy, the filter
stage, each task) completes successfully - the completion being the atomic
publication of its artifact - the corresponding field of the job's state
record is updated and the whole record is persisted to disk before the next
stage begins, so that at every stage boundary the persisted state marks all
completed stages as done.  (Attachment copies never complete, because the
attachments loop raises `TypeError` on the first configured attachment - see
claim C3 - so the property is vacuous for them and substantive for the filter
stage and the tasks.) -/
theorem C4_state_persisted_at_stage_boundaries (env : RunEnv) :
    persistedAtBoundaries (runJob env) = true := by
  rw [persistedAtBoundaries, runJob]
  cases h1 : alook env.job.name env.cfg.sources with
  | none => rfl
  | some source =>
    dsimp only
    cases h2 : env.job.jfilters.find? (fun f => (alook f env.cfg.filters).isNone) with
    | some f => rfl
    | none =>
      dsimp only
      rcases hInit : initPhase source env.loaded with ⟨evs0, st0⟩
      dsimp only
      have hscan0 := initPhase_scan source env.loaded evs0 st0 hInit
      have hInv0 : Inv ⟨false, [], [], []⟩ st0 := ⟨rfl, marksAll_empty_done st0 false⟩
      rcases attachKeysLoop_shape env.force env.targetsOnDisk
        (env.cfg.attachments.map (fun p => p.1)) st0 with hA | hA
      · rw [hA]
        dsimp only
        rcases hF : filterPhase env.force env.filterTypes env.cfg.filters env.job.jfilters st0
          env.outputExists with ⟨evs2, r2⟩
        obtain ⟨sc2, hscan2, hInv2⟩ :=
          filterPhase_scan env.force env.filterTypes env.cfg.filters env.job.jfilters st0
            env.outputExists ⟨false, [], [], []⟩ hInv0 evs2 r2 hF
        cases r2 with
        | none =>
          dsimp only
          rw [show evs0 ++ [] ++ evs2 = evs0 ++ evs2 by simp]
          rw [scanSt_append, hscan0, Option.some_bind, hscan2]
          rfl
        | some p2 =>
          obtain ⟨st2, oe2⟩ := p2
          dsimp only
          rcases hT : taskIter env.force env.taskTypes env.cfg.tasks oe2 env.job.jtasks st2
            with ⟨evs3, r3⟩
          dsimp only
          have hscan3 := taskIter_scan env.force env.taskTypes env.cfg.tasks oe2
            env.job.jtasks st2 sc2 (hInv2 st2 oe2 rfl) evs3 r3 hT
          rw [show evs0 ++ [] ++ evs2 ++ evs3 = evs0 ++ (evs2 ++ evs3) by simp]
          rw [scanSt_append, hscan0, Option.some_bind, scanSt_append, hscan2,
            Option.some_bind]
          exact hscan3
      · rw [hA]
        dsimp only
        rw [scanSt_append, hscan0]
        rw [Option.some_bind]
        rfl

/-! ### Claim C5: the multi-filter chain is all-or-nothing -/

/-- Every filter of the chain is configured with a known filter type (the
well-formedness the `run` command's earlier validation guarantees). -/
def chainLookupsOk (ftL : List String) (cf : List (String × FilterSpec))
    (jf : List String) : Bool :=
  jf.all (fun f => match alook f cf with
    | some fs => ftL.contains fs.ftype
    | none => false)

/-- The configured filter type of a filter name (total helper). -/
def cfgFtype (cf : List (String × FilterSpec)) (f : String) : String :=
  match alook f cf with
  | some fs => fs.ftype
  | none => ""

/-- SPEC-SIDE definition, from the claim's words: the whole chain runs from
the original source, each intermediate stage writes a scratch file read by the
next, and only the last stage writes the temp-named final artifact. -/
def specChainEvents (ft : String → String) : List String → FPath → Nat → List Ev
  | [], _, _ => []
  | [f], inp, _ => [.applyFilter (ft f) f inp .outPart]
  | f :: f2 :: rest, inp, i =>
    .applyFilter (ft f) f inp (.scratch i) ::
      specChainEvents ft (f2 :: rest) (.scratch i) (i + 1)

/-- SPEC-SIDE definition, from the claim's words: the chain is skipped iff
force is not set, every filter of the chain has a stored parameter snapshot
comparing equal to its configured parameters, and the final artifact exists. -/
def ChainSkipCond (force : Bool) (cf : List (String × FilterSpec)) (st : StoredState)
    (jf : List String) (oe : Bool) : Prop :=
  force = false ∧ oe = true ∧
    ∀ f ∈ jf, ∃ p fs, alook f st.filters = some p ∧ alook f cf = some fs ∧
      compare_parameters p fs.parameters = true

theorem chainCondEval_ok (cf : List (String × FilterSpec)) (st : StoredState) :
    ∀ jf : List String, (∀ f ∈ jf, (alook f cf).isSome = true) →
      ∃ b, chainCondEval cf st jf = .ok b ∧
        (b = true ↔ ∀ f ∈ jf, ∃ p fs, alook f st.filters = some p ∧
          alook f cf = some fs ∧ compare_parameters p fs.parameters = true) := by
  intro jf
  induction jf with
  | nil =>
    intro _
    refine ⟨true, rfl, iff_of_true rfl ?_⟩
    intro f hf
    exact absurd hf (List.not_mem_nil f)
  | cons f rest ih =>
    intro hcf
    rw [chainCondEval]
    cases hstf : alook f st.filters with
    | none =>
      refine ⟨false, rfl, iff_of_false (by simp) ?_⟩
      intro hall
      obtain ⟨p, fs, hp, -, -⟩ := hall f (List.mem_cons_self f rest)
      rw [hstf] at hp
      cases hp
    | some p =>
      cases hcfl : alook f cf with
      | none =>
        have := hcf f (List.mem_cons_self f rest)
        rw [hcfl] at this
        cases this
      | some fs =>
        dsimp only
        by_cases hcmp : compare_parameters p fs.parameters = true
        · rw [if_pos hcmp]
          obtain ⟨b, hb, hiff⟩ := ih (fun g hg => hcf g (List.mem_cons_of_mem f hg))
          refine ⟨b, hb, ?_⟩
          constructor
          · intro hbt g hg
            rcases List.mem_cons.mp hg with rfl | hg2
            · exact ⟨p, fs, hstf, hcfl, hcmp⟩
            · exact hiff.mp hbt g hg2
          · intro hall
            exact hiff.mpr (fun g hg => hall g (List.mem_cons_of_mem f hg))
        · rw [if_neg hcmp]
          refine ⟨false, rfl, iff_of_false (by simp) ?_⟩
          intro hall
          obtain ⟨p2, fs2, hp2, hfs2, hc2⟩ := hall f (List.mem_cons_self f rest)
          rw [hstf] at hp2
          obtain rfl := Option.some.inj hp2
          rw [hcfl] at hfs2
          obtain rfl := Option.some.inj hfs2
          exact hcmp hc2

theorem chainLoop_spec (ftL : List String) (cf : List (String × FilterSpec)) :
    ∀ names : List String,
      (∀ f ∈ names, ∃ fs, alook f cf = some fs ∧ ftL.contains fs.ftype = true) →
      ∀ (i : Nat) (st : StoredState),
        ∃ st2, chainLoop ftL cf names i (i + names.length) st =
          (specChainEvents (cfgFtype cf) names
            (if i = 0 then FPath.src else FPath.scratch (i - 1)) i, some st2) := by
  intro names
  induction names with
  | nil =>
    intro _ i st
    exact ⟨st, rfl⟩
  | cons f rest ih =>
    intro h i st
    obtain ⟨fs, hfs, htype⟩ := h f (List.mem_cons_self f rest)
    rw [chainLoop, hfs]
    dsimp only
    rw [if_pos htype]
    cases rest with
    | nil =>
      rw [if_pos (show i = i + [f].length - 1 by simp)]
      refine ⟨{ st with filters := aset f fs.parameters st.filters }, ?_⟩
      rw [show i + [f].length = (i + 1) + ([] : List String).length by simp]
      rw [chainLoop]
      dsimp only [specChainEvents, cfgFtype]
      rw [hfs]
    | cons f2 rest2 =>
      rw [if_neg (show ¬ i = i + (f :: f2 :: rest2).length - 1 by simp)]
      obtain ⟨st3, hrec⟩ := ih (fun g hg => h g (List.mem_cons_of_mem f hg)) (i + 1)
        { st with filters := aset f fs.parameters st.filters }
      rw [show (i + 1) + (f2 :: rest2).length = i + (f :: f2 :: rest2).length by
        simp only [List.length_cons]; omega] at hrec
      rw [hrec]
      refine ⟨st3, ?_⟩
      dsimp only [specChainEvents, cfgFtype]
      rw [hfs, if_neg (Nat.succ_ne_zero i), Nat.add_sub_cancel]

/-- Claim C5: for a job with two or more filters, the chain is skipped in its
entirety (the phase emits no event and keeps state and artifact flag) if and
only if force is not set, every filter of the chain has a stored parameter
snapshot equal to its configured parameters, and the final artifact exists;
in every other case the whole chain is re-invoked from the original source -
including filters whose own parameters are unchanged - with intermediate
results relayed through scratch files, only the last stage writing the
temp-named final artifact, which is then atomically published and the state
persisted once.  Source: render.py lines 738-777. -/
theorem C5_chain_all_or_nothing (force : Bool) (ftL : List String)
    (cf : List (String × FilterSpec)) (jf : List String) (st : StoredState) (oe : Bool)
    (hlen : 2 ≤ jf.length) (hlk : chainLookupsOk ftL cf jf = true) :
    (multiFilterPhase force ftL cf jf st oe = ([], some (st, oe)) ↔
      ChainSkipCond force cf st jf oe) ∧
    (¬ ChainSkipCond force cf st jf oe →
      ∃ st2, multiFilterPhase force ftL cf jf st oe =
        (specChainEvents (cfgFtype cf) jf FPath.src 0 ++
          [.publish (.filterStage jf), .save st2], some (st2, true))) := by
  have hlk2 : ∀ f ∈ jf, ∃ fs, alook f cf = some fs ∧ ftL.contains fs.ftype = true := by
    intro f hf
    have := (List.all_eq_true.mp hlk) f hf
    cases hc : alook f cf with
    | none => rw [hc] at this; cases this
    | some fs => rw [hc] at this; exact ⟨fs, rfl, this⟩
  have hcfS : ∀ f ∈ jf, (alook f cf).isSome = true := by
    intro f hf
    obtain ⟨fs, hfs, -⟩ := hlk2 f hf
    rw [hfs]
    rfl
  obtain ⟨st2, hloop⟩ := chainLoop_spec ftL cf jf hlk2 0 st
  rw [Nat.zero_add, if_pos rfl] at hloop
  have hne : specChainEvents (cfgFtype cf) jf FPath.src 0 ++
      [Ev.publish (.filterStage jf), Ev.save st2] ≠ [] := by simp
  rw [multiFilterPhase]
  cases force with
  | true =>
    rw [if_pos rfl]
    dsimp only
    rw [Bool.false_and, if_neg (Bool.false_ne_true), hloop]
    constructor
    · refine iff_of_false ?_ ?_
      · intro h
        exact hne (Prod.mk.injEq _ _ _ _ ▸ h).1
      · intro h
        cases h.1
    · intro _
      exact ⟨st2, rfl⟩
  | false =>
    rw [if_neg (Bool.false_ne_true)]
    obtain ⟨b, hb, hiff⟩ := chainCondEval_ok cf st jf hcfS
    rw [hb]
    dsimp only
    by_cases hbo : (b && oe) = true
    · rw [if_pos hbo]
      obtain ⟨hbt, hot⟩ := Bool.and_eq_true_iff.mp hbo
      constructor
      · refine iff_of_true rfl ⟨rfl, hot, hiff.mp hbt⟩
      · intro h
        exact absurd ⟨rfl, hot, hiff.mp hbt⟩ h
    · rw [if_neg hbo, hloop]
      constructor
      · refine iff_of_false ?_ ?_
        · intro h
          exact hne (Prod.mk.injEq _ _ _ _ ▸ h).1
        · rintro ⟨-, hot, hall⟩
          exact hbo (by rw [hiff.mpr hall, hot]; rfl)
      · intro _
        exact ⟨st2, rfl⟩

/-- Two configured filters for the C5 witness run. -/
def c5cf : List (String × FilterSpec) :=
  [("f1", ⟨"default", "i", "", .nil⟩), ("f2", ⟨"arbiter-saturation", "j", "", .nil⟩)]

theorem C5_chain_all_or_nothing_witness :
    2 ≤ (["f1", "f2"] : List String).length ∧
    chainLookupsOk ["default", "arbiter-saturation"] c5cf ["f1", "f2"] = true ∧
    (¬ ChainSkipCond false c5cf ⟨"/data/dog.es", [], [], []⟩ ["f1", "f2"] true) ∧
    (∃ st2, multiFilterPhase false ["default", "arbiter-saturation"] c5cf ["f1", "f2"]
        ⟨"/data/dog.es", [], [], []⟩ true =
      (specChainEvents (cfgFtype c5cf) ["f1", "f2"] FPath.src 0 ++
        [.publish (.filterStage ["f1", "f2"]), .save st2], some (st2, true))) := by
  have hns : ¬ ChainSkipCond false c5cf ⟨"/data/dog.es", [], [], []⟩ ["f1", "f2"] true := by
    rintro ⟨-, -, hall⟩
    obtain ⟨p, fs, hp, -, -⟩ := hall "f1" (by simp)
    exact Option.noConfusion hp
  refine ⟨by decide, rfl, hns, ?_⟩
  exact (C5_chain_all_or_nothing false ["default", "arbiter-saturation"] c5cf ["f1", "f2"]
    ⟨"/data/dog.es", [], [], []⟩ true (by decide) rfl).2 hns

end Charidotella
